import Mathlib

/-!
Verification of the next-translate translation/formatting core.

This file gives a shallow embedding, in Lean 4, of the repository's
translation pipeline:

* `src/src/messageFormatHelpers.tsx` — `isMF2ComplexMessage`,
  `convertToMf2`, `handleMarkupName`, `MessagePartsToTree` (with its inner
  `ProcessNodes`), `TreeToElements`;
* `src/src/formatElements.tsx` — `ProcessPartsList` / `HetListToDOMTree`
  (textually the same algorithms as `MessagePartsToTree` /
  `TreeToElements`) and the top-level `formatElements`;
* the unnamed core module (`transCore`, `splitNsKey`, `getDicValue`,
  `plural`, `interpolation`, `objectInterpolation`).

Conventions used throughout:

* JavaScript exceptions are modelled with `Except JsError`; a thrown
  exception is an `Except.error`.
* The external `messageformat` engine (`new MessageFormat(...)` together
  with `.format` / `.formatToParts`) is an out-of-scope dependency and is
  modelled as an explicit function parameter (`Engine`, `PartsEngine`).
  `Intl.PluralRules.select` is likewise a parameter `pluralSelect`.
* JS strings are Lean `String`s; JS objects are association lists that
  keep insertion order, which is what `Object.keys` iteration order is for
  string keys here.
* The unbounded recursion of `ProcessNodes` (it recurses on a shared
  mutable cursor) is rendered with an explicit fuel argument; lemma
  `ProcessNodes_fuel_sufficient` shows the fuel chosen by
  `MessagePartsToTree` can never run out, so the fuel-exhaustion branch is
  unreachable and the rendering is faithful.
-/

/-- Errors a run of the modelled code can raise.  `msgSyntax` stands for
the engine's `MessageSyntaxError`, `otherJs` for any other engine error,
`typeError` for a JavaScript `TypeError` (e.g. reading a property of
`undefined`), `reactError` for the error `React.cloneElement` raises when
handed `undefined`, `unreachable` for the explicit
`throw new Error("unreachable: " + type)`, and `modelFuel` is a model
artifact proven unreachable. -/
inductive JsError where
  | msgSyntax (msg : String)
  | otherJs (msg : String)
  | typeError (msg : String)
  | reactError (msg : String)
  | unreachable (typeName : String)
  | modelFuel
deriving DecidableEq, Repr

/-- One sub-part of a formatted number/datetime part (the engine's
`{ value }` records that `messagePart.parts` holds). -/
structure MFSubPart where
  value : String
deriving DecidableEq, Repr

/-- The atomic output unit of the message-formatting engine
(`MessagePart` of the `messageformat` package).  `markup` carries the
`kind` string exactly as the source compares it (`"open"`, `"close"`,
`"standalone"`).  `number`/`datetime` carry their own formatted
sub-parts (`parts`, possibly absent).  `other` stands for a part whose
`type` string is none of the five handled ones; the source's `switch`
falls into its `default` branch on such a part. -/
inductive MessagePart where
  | literal (value : String)
  | markup (kind : String) (name : String)
  | number (parts : Option (List MFSubPart))
  | datetime (parts : Option (List MFSubPart))
  | fallback (source : String)
  | other (typeName : String)
deriving DecidableEq, Repr

/-- The `type` string of a part, as the source's `switch` dispatches on it. -/
def MessagePart.typeName : MessagePart → String
  | .literal _ => "literal"
  | .markup _ _ => "markup"
  | .number _ => "number"
  | .datetime _ => "datetime"
  | .fallback _ => "fallback"
  | .other t => t

/-- The five part types the Component Mapper's `switch` handles; the
constructor `MessagePart.other` is reserved for parts outside them. -/
def handledTypes : List String := ["literal", "markup", "number", "datetime", "fallback"]

/-- True on the five handled constructors, false on `MessagePart.other`. -/
def MessagePart.isEngineCorePart : MessagePart → Bool
  | .other _ => false
  | _ => true

/-- A node of the reconstructed markup tree: either a leaf `MessagePart`
or a `Markup` node (the source's `Markup` class, tagged by a private
`#markup` field) with a tag `name` and a `child` forest. -/
inductive TreeNode where
  | part (p : MessagePart)
  | markup (name : String) (child : List TreeNode)
deriving Repr

/-- The source's `PartsTree` type: a list of parts and markup nodes. -/
abbrev PartsTree := List TreeNode

/-- Inner worker of `MessagePartsToTree` (identical in
`ProcessPartsList` of `formatElements.tsx`).  The shared mutable `toDo`
cursor of the source becomes explicit state: the result carries the tree
built so far together with the unconsumed suffix of `toDo`.  On a markup
`open` part it recursively processes everything up to the matching close,
then executes `const closeNode = toDo.shift(); if (closeNode.kind !== 'close')`:
when `toDo` is already empty, `shift()` returns `undefined` and reading
`.kind` raises a `TypeError`, which the model reproduces.  (When a part
is present it can only be a markup close here, so the warning branch has
no observable effect and the part is consumed either way.)  On a markup
`close` part the accumulator is returned with the close left unconsumed.
Any other part is appended to the accumulator
(`accum.toSpliced(accum.length, 0, part)`); the source has one default
branch for the five non-markup constructors, spelled out here case by
case so the equations stay clean. -/
def ProcessNodes : Nat → List MessagePart → PartsTree →
    Except JsError (PartsTree × List MessagePart)
  | 0, _, _ => .error .modelFuel
  | _ + 1, [], accum => .ok (accum, [])
  | fuel + 1, p :: rest, accum =>
    match p with
    | .markup kind name =>
      if kind = "open" then
        match ProcessNodes fuel rest [] with
        | .error e => .error e
        | .ok (tree, toDo1) =>
          match toDo1 with
          | [] => .error (.typeError "Cannot read properties of undefined (reading 'kind')")
          | _closeNode :: toDo2 =>
            ProcessNodes fuel toDo2 (accum ++ [TreeNode.markup name tree])
      else if kind = "close" then
        .ok (accum, p :: rest)
      else
        ProcessNodes fuel rest (accum ++ [TreeNode.part p])
    | .literal v => ProcessNodes fuel rest (accum ++ [TreeNode.part (.literal v)])
    | .number ps => ProcessNodes fuel rest (accum ++ [TreeNode.part (.number ps)])
    | .datetime ps => ProcessNodes fuel rest (accum ++ [TreeNode.part (.datetime ps)])
    | .fallback s => ProcessNodes fuel rest (accum ++ [TreeNode.part (.fallback s)])
    | .other t => ProcessNodes fuel rest (accum ++ [TreeNode.part (.other t)])

/-- Takes the list of `MessagePart`s produced by `formatToParts()` and
returns the reconstructed tree (`MessagePartsToTree` in
`messageFormatHelpers.tsx`).  The fuel `parts.length + 1` is enough for
the whole run (`ProcessNodes_fuel_sufficient`). -/
def MessagePartsToTree (parts : List MessagePart) : Except JsError PartsTree :=
  (ProcessNodes (parts.length + 1) parts []).map (fun r => r.1)

/-- The `ProcessPartsList` function of `formatElements.tsx` is textually
the same algorithm as `MessagePartsToTree`. -/
def ProcessPartsList : List MessagePart → Except JsError PartsTree :=
  MessagePartsToTree

/-! ### Well-formed part sequences

A well-formed sequence of parts is exactly the left-to-right
serialisation of a markup forest: each `Markup` node contributes a
matched `open`/`close` pair around the serialisation of its children,
and every leaf part is a part the reconstruction treats as content
(in particular not itself an `open` or `close` markup part). -/

mutual
/-- Serialise one tree node back to the engine's part sequence. -/
def flattenNode : TreeNode → List MessagePart
  | .part p => [p]
  | .markup name child =>
      MessagePart.markup "open" name :: (flattenForest child ++ [MessagePart.markup "close" name])
/-- Serialise a forest back to the engine's part sequence. -/
def flattenForest : List TreeNode → List MessagePart
  | [] => []
  | n :: rest => flattenNode n ++ flattenForest rest
end

/-- A part may sit at a leaf of a well-formed tree iff it is not a
markup `open`/`close` boundary (those only arise from `Markup` nodes). -/
def validLeaf : MessagePart → Bool
  | .markup kind _ => !(kind == "open") && !(kind == "close")
  | _ => true

mutual
/-- All leaves of the node are content parts. -/
def validNode : TreeNode → Bool
  | .part p => validLeaf p
  | .markup _ child => validForest child
/-- All leaves of the forest are content parts. -/
def validForest : List TreeNode → Bool
  | [] => true
  | n :: rest => validNode n && validForest rest
end

mutual
/-- Number of `Markup` nodes in a tree node. -/
def countMarkupNode : TreeNode → Nat
  | .part _ => 0
  | .markup _ child => 1 + countMarkupForest child
/-- Number of `Markup` nodes in a forest. -/
def countMarkupForest : List TreeNode → Nat
  | [] => 0
  | n :: rest => countMarkupNode n + countMarkupForest rest
end

mutual
/-- Markup nesting depth of a tree node. -/
def depthNode : TreeNode → Nat
  | .part _ => 0
  | .markup _ child => 1 + forestDepth child
/-- Markup nesting depth of a forest. -/
def forestDepth : List TreeNode → Nat
  | [] => 0
  | n :: rest => max (depthNode n) (forestDepth rest)
end

/-- Is the part a markup part of kind `open`. -/
def isOpenPart : MessagePart → Bool
  | .markup kind _ => kind == "open"
  | _ => false

/-- Is the part a markup part of kind `close`. -/
def isClosePart : MessagePart → Bool
  | .markup kind _ => kind == "close"
  | _ => false

/-- Number of markup `open` parts (= matched pairs, in a well-formed
sequence) of a part sequence. -/
def countOpens : List MessagePart → Nat
  | [] => 0
  | p :: rest => (if isOpenPart p then 1 else 0) + countOpens rest

/-- Maximum markup nesting depth reached by a part sequence, scanning
left to right starting at depth `d`. -/
def seqMaxDepthAux : List MessagePart → Nat → Nat
  | [], _ => 0
  | p :: rest, d =>
    if isOpenPart p then max (d + 1) (seqMaxDepthAux rest (d + 1))
    else if isClosePart p then seqMaxDepthAux rest (d - 1)
    else seqMaxDepthAux rest d

/-- Markup nesting depth of a part sequence. -/
def seqMaxDepth (parts : List MessagePart) : Nat :=
  seqMaxDepthAux parts 0

/-- A sequence is well formed when it serialises some valid forest. -/
def WellFormedParts (parts : List MessagePart) : Prop :=
  ∃ t : PartsTree, validForest t = true ∧ flattenForest t = parts

/-- A terminator for a `ProcessNodes` frame: end of input, or an
unconsumed markup close part. -/
def Stopper (rest : List MessagePart) : Prop :=
  rest = [] ∨ ∃ nm r2, rest = MessagePart.markup "close" nm :: r2

/-- Depth contribution of a serialised forest when scanning starts at
depth `d`: zero when the forest has no markup node, else `d` plus the
forest's markup depth. -/
def depthContrib (t : PartsTree) (d : Nat) : Nat :=
  if forestDepth t = 0 then 0 else d + forestDepth t

/-- A concrete well-formed forest with nested markup, used to witness
`claim1_markup_balance`. -/
def exampleForest : PartsTree :=
  [TreeNode.markup "a" [TreeNode.part (.literal "x"), TreeNode.markup "b" []],
   TreeNode.part (.literal "y")]

/-! ### Placeholder-syntax rewriting

The source rewrites legacy placeholder/markup syntax into the engine's
grammar with chains of `String.prototype.replace`/`replaceAll` calls on
global regexes.  The model implements each regex as a character-level
matcher and the global replace as a single left-to-right non-overlapping
scan, which is exactly the semantics of a global-regex replace for these
patterns (none of them can match the empty string). -/

/-- JS `String.prototype.startsWith`, implemented on the character
lists so that it evaluates by kernel reduction. -/
def strStartsWith (s pre : String) : Bool :=
  pre.data.isPrefixOf s.data

/-- Detection of a message already written in the target grammar
(`isMF2ComplexMessage` in `messageFormatHelpers.tsx`).  The function's
comment also mentions a leading double brace, but the returned
expression tests only the three dot-keywords. -/
def isMF2ComplexMessage (message : String) : Bool :=
  strStartsWith message ".match" || strStartsWith message ".local" || strStartsWith message ".input"

/-- JS regex `\w` (ASCII word character). -/
def isWordCharJS (c : Char) : Bool :=
  c.isAlphanum || c == '_'

/-- JS regex `\s`, restricted to the ASCII whitespace the templates in
this code base use (the full class also has unicode spaces). -/
def isSpaceJS (c : Char) : Bool :=
  c == ' ' || c == '\t' || c == '\n' || c == '\r' || c == '\x0b' || c == '\x0c'

/-- A matcher tries a pattern at the head of the suffix; on success it
yields the replacement characters and the unconsumed suffix. -/
abbrev MatcherAt := List Char → Option (List Char × List Char)

/-- Left-to-right, non-overlapping global replace: at each position try
the matcher; on a match emit the replacement and continue after it,
otherwise keep one character and move on.  Every matcher used here
consumes at least one character, so fuel `cs.length` cannot run out. -/
def replaceScan (m : MatcherAt) : Nat → List Char → List Char
  | 0, cs => cs
  | _ + 1, [] => []
  | fuel + 1, c :: cs =>
    match m (c :: cs) with
    | some (repl, rest) => repl ++ replaceScan m fuel rest
    | none => c :: replaceScan m fuel cs

/-- Global replace over a string. -/
def replaceAllWith (m : MatcherAt) (s : String) : String :=
  String.mk (replaceScan m s.data.length s.data)

/-- Matcher for the tag regex: lt, one or more digits, optional slash,
gt; the replacement is brace, hash, underscore, the captured group
(digits plus the optional slash), brace.  This is the first rewrite of
`convertToMf2` (and of `formatElements.tsx`). -/
def matchNumTag : MatcherAt
  | '<' :: cs =>
    let ds := cs.takeWhile Char.isDigit
    let cs2 := cs.dropWhile Char.isDigit
    if ds.isEmpty then none
    else
      match cs2 with
      | '/' :: '>' :: rest => some ('\x7b' :: '#' :: '_' :: (ds ++ ['/', '\x7d']), rest)
      | '>' :: rest => some ('\x7b' :: '#' :: '_' :: (ds ++ ['\x7d']), rest)
      | _ => none
  | _ => none

/-- Matcher for the closing numeric tag regex: lt, slash, digits, gt;
replacement brace, slash, underscore, digits, brace. -/
def matchNumCloseTag : MatcherAt
  | '<' :: '/' :: cs =>
    let ds := cs.takeWhile Char.isDigit
    let cs2 := cs.dropWhile Char.isDigit
    if ds.isEmpty then none
    else
      match cs2 with
      | '>' :: rest => some ('\x7b' :: '/' :: '_' :: (ds ++ ['\x7d']), rest)
      | _ => none
  | _ => none

/-- Matcher for the open/standalone word tag regex: lt, one or more word
characters, optional slash, gt; replacement brace, hash, group, brace. -/
def matchWordTag : MatcherAt
  | '<' :: cs =>
    let ws := cs.takeWhile isWordCharJS
    let cs2 := cs.dropWhile isWordCharJS
    if ws.isEmpty then none
    else
      match cs2 with
      | '/' :: '>' :: rest => some ('\x7b' :: '#' :: (ws ++ ['/', '\x7d']), rest)
      | '>' :: rest => some ('\x7b' :: '#' :: (ws ++ ['\x7d']), rest)
      | _ => none
  | _ => none

/-- Matcher for the closing word tag regex: lt, slash, word characters,
gt; replacement brace, slash, group, brace. -/
def matchWordCloseTag : MatcherAt
  | '<' :: '/' :: cs =>
    let ws := cs.takeWhile isWordCharJS
    let cs2 := cs.dropWhile isWordCharJS
    if ws.isEmpty then none
    else
      match cs2 with
      | '>' :: rest => some ('\x7b' :: '/' :: (ws ++ ['\x7d']), rest)
      | _ => none
  | _ => none

/-- Converts markup placeholders to the engine grammar (`convertToMf2`
in `messageFormatHelpers.tsx`; the same four replaces open
`formatElements` in `formatElements.tsx`).  Numeric markup tags are
prefixed with an underscore, because a tag name in the target grammar
cannot begin with a digit. -/
def convertToMf2 (message : String) : String :=
  replaceAllWith matchWordCloseTag
    (replaceAllWith matchWordTag
      (replaceAllWith matchNumCloseTag
        (replaceAllWith matchNumTag message)))

/-- Helper that removes the underscore alias from a numeric tag name
(`handleMarkupName`, present in both tsx files). -/
def handleMarkupName (name : String) : String :=
  if strStartsWith name "_" then String.mk (name.data.drop 1) else name

/-- Optional whitespace directly followed by the two closing braces of a
placeholder; yields the suffix after them. -/
def closeAfterSpaces (cs : List Char) : Option (List Char) :=
  match cs.dropWhile isSpaceJS with
  | '\x7d' :: '\x7d' :: rest => some rest
  | _ => none

/-- Lazy tail of the variable-reference regex after a comma: the
non-greedy dot-star consumes as few characters as possible until
optional whitespace followed by the closing braces matches; a dot never
crosses a line terminator. -/
def findLazyClose : List Char → Option (List Char)
  | [] => none
  | c :: cs2 =>
    match closeAfterSpaces (c :: cs2) with
    | some rest => some rest
    | none =>
      if c == '\n' || c == '\r' then none else findLazyClose cs2

/-- Matcher for the variable-reference regex `varRE` built in
`interpolation` under the default delimiters (prefix two opening braces,
suffix two closing braces): prefix, optional whitespace, a nonempty run
of word characters (the variable name), an optional comma followed
lazily by a format name, optional whitespace, suffix.  The replacement
string is brace, dollar, group one, brace. -/
def matchVarAt : MatcherAt
  | '\x7b' :: '\x7b' :: cs =>
    let cs2 := cs.dropWhile isSpaceJS
    let nm := cs2.takeWhile isWordCharJS
    let cs3 := cs2.dropWhile isWordCharJS
    if nm.isEmpty then none
    else
      match cs3 with
      | ',' :: cs4 =>
        match findLazyClose cs4 with
        | some rest => some (('\x7b' :: '$' :: nm) ++ ['\x7d'], rest)
        | none => none
      | _ =>
        match closeAfterSpaces cs3 with
        | some rest => some (('\x7b' :: '$' :: nm) ++ ['\x7d'], rest)
        | none => none
  | _ => none

/-- The placeholder-normalisation pass of `interpolation`
(`text.replaceAll(varRE, ...)` under the default delimiters). -/
def convertVarRefs (text : String) : String :=
  replaceAllWith matchVarAt text

/-- The template actually handed to the formatting engine by
`interpolation`: unchanged when `isMF2ComplexMessage` detects the target
grammar, otherwise the variable references are rewritten. -/
def mfTextOf (text : String) : String :=
  if isMF2ComplexMessage text then text else convertVarRefs text

/-! ### Component mapping

`TreeToElements` (`messageFormatHelpers.tsx`) and `HetListToDOMTree`
(`formatElements.tsx`) walk the reconstructed tree and map markup onto
caller-supplied components.  React elements are opaque here: the
component handles are a type parameter, and the produced output is a
small tree of text nodes and cloned components. -/

/-- Caller-supplied component map: a JS array (positional components) or
a plain object keyed by tag name, over opaque component handles. -/
inductive Components (α : Type) where
  | arr (items : List α)
  | record (entries : List (String × α))

/-- One produced renderable node: a text fragment, or
`React.cloneElement(component, undefined, ...children)`. -/
inductive RNode (α : Type) where
  | text (s : String)
  | clone (c : α) (children : List (RNode α))

/-- Value of a list of decimal digits. -/
def decimalValue (cs : List Char) : Nat :=
  cs.foldl (fun acc c => acc * 10 + (c.toNat - 48)) 0

/-- Reads a tag name as an array index: defined exactly when the name is
a nonempty run of digits.  This models both array accesses of the
source — `components[Number(markupName)]` in the markup-node branch and
`components[name]` in the standalone branch — which yield an element
exactly when the name denotes an index and `undefined` otherwise (they
differ only on non-canonical numerals such as a leading zero, which no
rewritten tag name contains). -/
def strToIndex (name : String) : Option Nat :=
  if name.data ≠ [] ∧ name.data.all Char.isDigit then some (decimalValue name.data)
  else none

/-- Component lookup: positional on an array, property lookup on a
record. -/
def componentsLookup {α : Type} : Components α → String → Option α
  | .arr items, name =>
    match strToIndex name with
    | some i => items.get? i
    | none => none
  | .record entries, name => (entries.find? (fun e => e.1 == name)).map (fun e => e.2)

/-- Concatenated text of a number/datetime part's own sub-parts
(`messagePart.parts?.reduce((acc, part) => acc + part.value, '')`); an
absent list renders as the empty fragment. -/
def subPartsText (parts : Option (List MFSubPart)) : String :=
  match parts with
  | none => ""
  | some ps => ps.foldl (fun acc p => acc ++ p.value) ""

/-- The leaf dispatch of `TreeToElements`/`HetListToDOMTree`: the
`switch (messagePart.type)`.  A literal becomes text; a markup leaf (the
standalone case) clones the component found under the part's name —
note: the name is looked up as-is, with no `handleMarkupName` — and
`React.cloneElement(undefined)` raises when the lookup misses;
number/datetime flatten to their sub-part text; a fallback renders a
brace-wrapped copy of its source; any other part type hits the default
branch `throw new Error("unreachable: " + type)`. -/
def partToElements {α : Type} (p : MessagePart) (components : Components α) :
    Except JsError (List (RNode α)) :=
  match p with
  | .literal v => .ok [.text v]
  | .markup _kind name =>
    match componentsLookup components name with
    | some c => .ok [.clone c []]
    | none => .error (.reactError "cloneElement: element is undefined")
  | .number ps => .ok [.text (subPartsText ps)]
  | .datetime ps => .ok [.text (subPartsText ps)]
  | .fallback src => .ok [.text ("\x7b" ++ src ++ "\x7d")]
  | .other ty => .error (.unreachable ty)

mutual
/-- Maps markup onto components while flattening a `PartsTree` into a
list of renderable nodes (`TreeToElements` in `messageFormatHelpers.tsx`,
`HetListToDOMTree` in `formatElements.tsx`): `hetList.flatMap`, with an
exception aborting the whole traversal.  (The source also has a dead
`Array.isArray(part)` branch; the tree built by `MessagePartsToTree`
never stores an array as an element, and the model's node type has no
such case.) -/
def TreeToElements {α : Type} : List TreeNode → Components α →
    Except JsError (List (RNode α))
  | [], _ => .ok []
  | n :: rest, components =>
    match treeNodeToElements n components with
    | .error e => .error e
    | .ok first =>
      match TreeToElements rest components with
      | .error e => .error e
      | .ok restOut => .ok (first ++ restOut)
/-- One element of the `flatMap`: a `Markup` node maps its children
first, strips the underscore alias from its tag name with
`handleMarkupName`, looks the name up in the component map, and wraps
the children in a clone when found — otherwise the children are
returned unwrapped.  A leaf part goes through the type dispatch. -/
def treeNodeToElements {α : Type} : TreeNode → Components α →
    Except JsError (List (RNode α))
  | .markup name child, components =>
    match TreeToElements child components with
    | .error e => .error e
    | .ok subtree =>
      match componentsLookup components (handleMarkupName name) with
      | some c => .ok [.clone c subtree]
      | none => .ok subtree
  | .part p, components => partToElements p components
end

/-- The `HetListToDOMTree` function of `formatElements.tsx` is textually
the same algorithm as `TreeToElements`. -/
def HetListToDOMTree {α : Type} : List TreeNode → Components α →
    Except JsError (List (RNode α)) :=
  TreeToElements

/-! ### Dictionary model and key resolution -/

/-- A dictionary value: a string template, a nested object, or an
array (JSON values the loader can produce; `interpolateUnknown`
dispatches on exactly these three shapes). -/
inductive DicValue where
  | str (s : String)
  | obj (entries : List (String × DicValue))
  | arr (items : List DicValue)

/-- One namespace's dictionary: a JS object in insertion order. -/
abbrev I18nDictionary := List (String × DicValue)

/-- A query value: translation variables are numbers or strings here
(JS numbers are modelled as integers; the claims only quantify over
integer counts). -/
inductive QVal where
  | num (n : Int)
  | str (s : String)

/-- The `query` object: variables in insertion order. -/
abbrev Query := List (String × QVal)

/-- The legacy custom formatter from `config.interpolation.format`:
called with the variable value, the format name, and the language. -/
abbrev FormatFn := QVal → String → Option String → String

/-- The configuration fields this core reads.  The interpolation
delimiters are fixed at their defaults (two braces); `format` is the
optional legacy custom formatter. -/
structure I18nConfig where
  keySeparator : String := "."
  nsSeparator : String := ":"
  defaultNS : Option String := none
  allowEmptyStrings : Bool := true
  format : Option FormatFn := none

/-- JS truthiness of a dictionary value: only the empty string is
falsy (objects and arrays are always truthy). -/
def dicTruthy : DicValue → Bool
  | .str s => !(s == "")
  | .obj _ => true
  | .arr _ => true

/-- JS property access `val[key]` for the shapes that occur: object
property lookup, array indexing by a numeric string. -/
def dicChildGet : DicValue → String → Option DicValue
  | .obj entries, seg => (entries.find? (fun e => e.1 == seg)).map (fun e => e.2)
  | .arr items, seg =>
    match strToIndex seg with
    | some i => items.get? i
    | none => none
  | .str _, _ => none

/-- Worker for `jsSplit`: accumulates the current segment (reversed) and
splits at each occurrence of the separator, like
`String.prototype.split` with a nonempty string separator.  The fuel is
the remaining length plus one and cannot run out, since every step
consumes at least one character. -/
def splitAux (sep : List Char) : Nat → List Char → List Char → List (List Char)
  | 0, cs, cur => [cur.reverse ++ cs]
  | _ + 1, [], cur => [cur.reverse]
  | fuel + 1, c :: cs2, cur =>
    if sep.isPrefixOf (c :: cs2) then
      cur.reverse :: splitAux sep fuel (List.drop sep.length (c :: cs2)) []
    else
      splitAux sep fuel cs2 (c :: cur)

/-- JS `key.split(keySeparator)` for a nonempty separator. -/
def jsSplit (s sep : String) : List String :=
  (splitAux sep.data (s.data.length + 1) s.data []).map String.mk

/-- The key segments `getDicValue` reduces over:
`keySeparator ? key.split(keySeparator) : [key]`. -/
def splitKeyParts (cfg : I18nConfig) (key : String) : List String :=
  if cfg.keySeparator ≠ "" then jsSplit key cfg.keySeparator else [key]

/-- One step of the reduce inside `getDicValue`: a string accumulator
yields the empty object (resolution dead-ends below a leaf); otherwise
the property is read and `res || (typeof res === 'string' ? res : \x7b\x7d)`
keeps truthy values and empty-string leaves, and replaces anything else
with the empty object. -/
def getDicStep (val : DicValue) (seg : String) : DicValue :=
  match val with
  | .str _ => .obj []
  | v =>
    match dicChildGet v seg with
    | some res =>
      if dicTruthy res then res
      else
        match res with
        | .str s => .str s
        | _ => .obj []
    | none => .obj []

/-- Gets a (possibly nested) value from a dictionary key — `getDicValue`
in the core module.  `returnObjects` is the only options field it reads.
Returns the final string (or, when objects were requested, composite)
value, else the `undefined` sentinel `none`. -/
def getDicValue (dic : I18nDictionary) (key : String) (cfg : I18nConfig)
    (returnObjects : Bool) : Option DicValue :=
  let keyParts := splitKeyParts cfg key
  if key == cfg.keySeparator && returnObjects then some (.obj dic)
  else
    match keyParts.foldl getDicStep (.obj dic) with
    | .str s => some (.str s)
    | v => if returnObjects then some v else none

/-- Reads the `count` field of a query. -/
def qget (q : Query) (k : String) : Option QVal :=
  (q.find? (fun e => e.1 == k)).map (fun e => e.2)

/-- Controls plural keys depending on the `count` variable — `plural` in
the core module.  `pluralSelect` models `Intl.PluralRules.select`. -/
def plural (pluralSelect : Int → String) (dic : I18nDictionary) (key : String)
    (cfg : I18nConfig) (query : Option Query) : String :=
  match query with
  | none => key
  | some q =>
    match qget q "count" with
    | some (.num n) =>
      let numKey := key ++ "_" ++ toString n
      if (getDicValue dic numKey cfg false).isSome then numKey
      else
        let pluralKey := key ++ "_" ++ pluralSelect n
        if (getDicValue dic pluralKey cfg false).isSome then pluralKey
        else
          let nestedNumKey := key ++ "." ++ toString n
          if (getDicValue dic nestedNumKey cfg false).isSome then nestedNumKey
          else
            let nestedKey := key ++ "." ++ pluralSelect n
            if (getDicValue dic nestedKey cfg false).isSome then nestedKey
            else key
    | _ => key

/-- The candidate keys of the Plural Selector, in priority order: flat
exact count, flat category, nested exact count, nested category. -/
def pluralCandidates (pluralSelect : Int → String) (key : String) (n : Int) :
    List String :=
  [key ++ "_" ++ toString n, key ++ "_" ++ pluralSelect n,
   key ++ "." ++ toString n, key ++ "." ++ pluralSelect n]

/-- The intended reading of key resolution: walk the dictionary segment
by segment; a missing property, or a remaining segment below a string
leaf, is a dead end. -/
def dicWalk : DicValue → List String → Option DicValue
  | v, [] => some v
  | .str _, _ :: _ => none
  | .obj entries, seg :: rest =>
    match dicChildGet (.obj entries) seg with
    | some w => dicWalk w rest
    | none => none
  | .arr items, seg :: rest =>
    match dicChildGet (.arr items) seg with
    | some w => dicWalk w rest
    | none => none

/-! ### Template interpolation

The engine boundary (`new MessageFormat(template, lang)` and its
`format`/`formatToParts`) is external; both construction and formatting
happen inside the source's `try`, so one oracle call models them. -/

/-- The string-formatting engine boundary: template, language, query. -/
abbrev Engine := String → Option String → Option Query → Except JsError String

/-- The parts-producing engine boundary used by `formatElements`. -/
abbrev PartsEngine := String → Except JsError (List MessagePart)

/-- Is the error the engine's distinguished `MessageSyntaxError` kind
(the `e instanceof MessageSyntaxError` test). -/
def isSyntaxErr : JsError → Bool
  | .msgSyntax _ => true
  | _ => false

/-- JS regex class of a space or comma, used by the legacy format
pattern. -/
def isSpaceOrComma (c : Char) : Bool :=
  isSpaceJS c || c == ','

/-- JS regex class of a word character or hyphen, the legacy format-name
capture. -/
def isWordOrHyphen (c : Char) : Bool :=
  isWordCharJS c || c == '-'

/-- JS string coercion of a query value. -/
def qvalToString : QVal → String
  | .num n => toString n
  | .str s => s

/-- Matcher for the per-variable legacy regex of `interpolation` (the
custom-formatter path, default delimiters): prefix, optional whitespace,
the variable name, an optional group of one-or-more spaces/commas
capturing a run of word/hyphen characters, optional whitespace, suffix.
Returns the captured group (when the group participated) and the
suffix after the match; when the greedy group cannot complete the
match, the regex falls back to skipping the optional group. -/
def matchLegacyAt (varKey : List Char) : List Char → Option (Option String × List Char)
  | '\x7b' :: '\x7b' :: cs =>
    let cs2 := cs.dropWhile isSpaceJS
    if varKey.isPrefixOf cs2 then
      let cs3 := cs2.drop varKey.length
      let sp := cs3.takeWhile isSpaceOrComma
      if !sp.isEmpty then
        let cs4 := cs3.dropWhile isSpaceOrComma
        let cs5 := cs4.dropWhile isWordOrHyphen
        match closeAfterSpaces cs5 with
        | some rest => some (some (String.mk (cs4.takeWhile isWordOrHyphen)), rest)
        | none =>
          match closeAfterSpaces cs3 with
          | some rest => some (none, rest)
          | none => none
      else
        match closeAfterSpaces cs3 with
        | some rest => some (none, rest)
        | none => none
    else none
  | _ => none

/-- One `all.replace(regex, ...)` of the legacy path for one variable:
a global scan; each match is replaced by `format(value, $1, lang)` when
a format name was captured and is nonempty, else by the variable's
value.  Every match consumes at least one character, so fuel cannot run
out. -/
def legacyScanOne (f : FormatFn) (lang : Option String) (value : QVal)
    (varKey : List Char) : Nat → List Char → List Char
  | 0, cs => cs
  | _ + 1, [] => []
  | fuel + 1, c :: cs =>
    match matchLegacyAt varKey (c :: cs) with
    | some (g, rest) =>
      (match g with
        | some g1 => if !(g1 == "") then f value g1 lang else qvalToString value
        | none => qvalToString value).data
        ++ legacyScanOne f lang value varKey fuel rest
    | none => c :: legacyScanOne f lang value varKey fuel cs

/-- The legacy custom-formatter interpolation:
`Object.keys(query).reduce((all, varKey) => all.replace(regex, ...), text)`. -/
def legacyFormat (f : FormatFn) (q : Query) (text : String) (lang : Option String) :
    String :=
  q.foldl (fun all e => String.mk (legacyScanOne f lang e.2 e.1.data all.data.length all.data))
    text

/-- The engine call of `interpolation` with its `try`/`catch`: `result`
is initialised to the original text, a `MessageSyntaxError` is swallowed
(so the original text is returned), any other error propagates. -/
def interpolationEngineCall (engine : Engine) (t : String) (lang : Option String)
    (query : Option Query) : Except JsError String :=
  match engine (mfTextOf t) lang query with
  | .ok r => .ok r
  | .error e => if isSyntaxErr e then .ok t else .error e

/-- Replaces placeholder variables by query values — `interpolation` in
the core module.  A missing or empty text yields the empty string
(`if (!text) return text || ''`).  With a query and a configured custom
formatter the legacy regex path runs (and never touches the engine);
otherwise the text is normalised by `mfTextOf` and formatted by the
engine, recovering from syntax errors. -/
def interpolation (engine : Engine) (text : Option String) (query : Option Query)
    (cfg : I18nConfig) (lang : Option String) : Except JsError String :=
  match text with
  | none => .ok ""
  | some t =>
    if t == "" then .ok ""
    else
      match cfg.format, query with
      | some f, some q => .ok (legacyFormat f q t lang)
      | some _, none => interpolationEngineCall engine t lang query
      | none, _ => interpolationEngineCall engine t lang query

/-- The markup-formatting entry point of `formatElements.tsx`
(unnamed part 001): convert the template, format it to parts inside a
`try` that returns the original template on a `MessageSyntaxError`
(logging a warning) and rethrows anything else, then reconstruct the
tree and map components. -/
def formatElements {α : Type} (engineParts : PartsEngine) (value : String)
    (elements : Components α) : Except JsError (Sum String (List (RNode α))) :=
  let message := convertToMf2 value
  match engineParts message with
  | .error e => if isSyntaxErr e then .ok (.inl value) else .error e
  | .ok list =>
    match MessagePartsToTree list with
    | .error e => .error e
    | .ok processed =>
      match TreeToElements processed elements with
      | .error e => .error e
      | .ok contents => .ok (.inr contents)

/-- An engine that always raises a syntax error, for the witness. -/
def engineSyntaxFail : Engine := fun _ _ _ => .error (.msgSyntax "parse error")

/-- A parts engine that always raises a syntax error, for the witness. -/
def enginePartsFail : PartsEngine := fun _ => .error (.msgSyntax "parse error")

/-! ### The translate call -/

/-- Index-of worker: first position at which the pattern is a prefix. -/
def strIndexOfAux (pat : List Char) : Nat → List Char → Option Nat
  | _, [] => none
  | i, c :: cs => if pat.isPrefixOf (c :: cs) then some i else strIndexOfAux pat (i + 1) cs

/-- JS `key.indexOf(nsSeparator)`; `none` models the -1 result. -/
def strIndexOf (s pat : String) : Option Nat :=
  strIndexOfAux pat.data 0 s.data

/-- Splits a raw key into namespace and key (`splitNsKey`): a falsy
separator (modelled by the empty string) disables namespace splitting,
otherwise the key is cut at the first occurrence of the separator. -/
def splitNsKey (key : String) (nsSeparator : String) : Option String × String :=
  if nsSeparator == "" then (none, key)
  else
    match strIndexOf key nsSeparator with
    | none => (none, key)
    | some i =>
      (some (String.mk (key.data.take i)),
        String.mk (key.data.drop (i + nsSeparator.data.length)))

/-- The options of a translate call.  The source accepts
`fallback: string | string[]` and wraps a lone string into a singleton
before use, so the model takes the normalised list; `default` may be any
dictionary-shaped value. -/
structure TransOptions where
  ns : Option String := none
  returnObjects : Bool := false
  fallback : List String := []
  default : Option DicValue := none

/-- The `empty` test of the translate call: undefined value, object or
array without keys, or an empty string when empty strings are
disallowed. -/
def isEmptyValue (v : Option DicValue) (allowEmptyStrings : Bool) : Bool :=
  match v with
  | none => true
  | some (.obj entries) => entries.isEmpty
  | some (.arr items) => items.isEmpty
  | some (.str s) => s == "" && !allowEmptyStrings

/-- The `!query || Object.keys(query).length === 0` guard of
`objectInterpolation`. -/
def queryEmpty (query : Option Query) : Bool :=
  match query with
  | none => true
  | some q => q.isEmpty

mutual
/-- Body of `objectInterpolation` once the query is known nonempty: each
string field goes through `interpolation`, each object or array field is
recursed into (the source mutates the fields in place; the value-level
model returns the post-mutation value — the aliasing side of the story
is modelled in the heap section below). -/
def objInterpGo (engine : Engine) (cfg : I18nConfig) (lang : Option String)
    (query : Option Query) : DicValue → Except JsError DicValue
  | .str s =>
    match interpolation engine (some s) query cfg lang with
    | .ok r => .ok (.str r)
    | .error e => .error e
  | .obj entries =>
    match objInterpFields engine cfg lang query entries with
    | .ok es => .ok (.obj es)
    | .error e => .error e
  | .arr items =>
    match objInterpElems engine cfg lang query items with
    | .ok vs => .ok (.arr vs)
    | .error e => .error e
/-- Field-by-field walk of an object (`Object.keys(obj).forEach`). -/
def objInterpFields (engine : Engine) (cfg : I18nConfig) (lang : Option String)
    (query : Option Query) :
    List (String × DicValue) → Except JsError (List (String × DicValue))
  | [] => .ok []
  | (k, v) :: rest =>
    match objInterpGo engine cfg lang query v with
    | .error e => .error e
    | .ok v2 =>
      match objInterpFields engine cfg lang query rest with
      | .error e => .error e
      | .ok rest2 => .ok ((k, v2) :: rest2)
/-- Element-by-element walk of an array treated as an object. -/
def objInterpElems (engine : Engine) (cfg : I18nConfig) (lang : Option String)
    (query : Option Query) : List DicValue → Except JsError (List DicValue)
  | [] => .ok []
  | v :: rest =>
    match objInterpGo engine cfg lang query v with
    | .error e => .error e
    | .ok v2 =>
      match objInterpElems engine cfg lang query rest with
      | .error e => .error e
      | .ok rest2 => .ok (v2 :: rest2)
end

/-- Object interpolation (`objectInterpolation` in the core module):
returns the object untouched when the query is missing or empty. -/
def objectInterpolation (engine : Engine) (cfg : I18nConfig) (lang : Option String)
    (query : Option Query) (v : DicValue) : Except JsError DicValue :=
  if queryEmpty query then .ok v else objInterpGo engine cfg lang query v

mutual
/-- `interpolateUnknown` of `transCore`: arrays are mapped element-wise,
objects go through `objectInterpolation`, strings through
`interpolation`. -/
def interpolateUnknown (engine : Engine) (cfg : I18nConfig) (lang : Option String)
    (query : Option Query) : DicValue → Except JsError DicValue
  | .arr items =>
    match interpolateUnknownList engine cfg lang query items with
    | .ok vs => .ok (.arr vs)
    | .error e => .error e
  | .obj entries => objectInterpolation engine cfg lang query (.obj entries)
  | .str s =>
    match interpolation engine (some s) query cfg lang with
    | .ok r => .ok (.str r)
    | .error e => .error e
/-- The `value.map((val) => interpolateUnknown(val, query))` of the
array branch. -/
def interpolateUnknownList (engine : Engine) (cfg : I18nConfig) (lang : Option String)
    (query : Option Query) : List DicValue → Except JsError (List DicValue)
  | [] => .ok []
  | v :: rest =>
    match interpolateUnknown engine cfg lang query v with
    | .error e => .error e
    | .ok v2 =>
      match interpolateUnknownList engine cfg lang query rest with
      | .error e => .error e
      | .ok rest2 => .ok (v2 :: rest2)
end

/-- Resolution of a single key by the translate call, up to the `empty`
test: namespace split (the word `namespace` is a Lean keyword, so the
local is `nsName`), dictionary choice, plural key selection, dictionary
lookup, and the deep clone (`JSON.parse(JSON.stringify(dicValue))`,
which is value-identical).  Yields the value when it is non-empty, else
`none`. -/
def resolveValue (pluralSelect : Int → String) (cfg : I18nConfig)
    (allNamespaces : List (String × I18nDictionary)) (ns : Option String)
    (returnObjects : Bool) (key : String) (query : Option Query) : Option DicValue :=
  let split := splitNsKey key cfg.nsSeparator
  let i18nKey := split.2
  let nsName : Option String := (split.1.orElse (fun _ => ns)).orElse (fun _ => cfg.defaultNS)
  let dic : I18nDictionary :=
    match nsName with
    | some n =>
      if !(n == "") then
        ((allNamespaces.find? (fun e => e.1 == n)).map (fun e => e.2)).getD []
      else []
    | none => []
  let keyWithPlural := plural pluralSelect dic i18nKey cfg query
  let value := getDicValue dic keyWithPlural cfg returnObjects
  if isEmptyValue value cfg.allowEmptyStrings then none else value

/-- The translate call `t` returned by `transCore`, with the fallback
list as the explicit recursion argument (the source recurses with
`t(firstFallback, query, (...options, fallback: restFallbacks))`, a
structurally smaller list).  When resolution is empty: with fallbacks
remaining, recurse into the first; with none, a truthy static default is
interpolated; otherwise the current raw key is returned.  Logging is a
side effect with no bearing on the value and is not modelled. -/
def transCoreGo (engine : Engine) (cfg : I18nConfig) (lang : Option String)
    (pluralSelect : Int → String) (allNamespaces : List (String × I18nDictionary))
    (ns : Option String) (returnObjects : Bool) (dflt : Option DicValue)
    (query : Option Query) : List String → String → Except JsError DicValue
  | [], key =>
    match resolveValue pluralSelect cfg allNamespaces ns returnObjects key query with
    | some v => interpolateUnknown engine cfg lang query v
    | none =>
      match dflt with
      | some d =>
        if dicTruthy d then interpolateUnknown engine cfg lang query d
        else .ok (.str key)
      | none => .ok (.str key)
  | firstFallback :: restFallbacks, key =>
    match resolveValue pluralSelect cfg allNamespaces ns returnObjects key query with
    | some v => interpolateUnknown engine cfg lang query v
    | none =>
      transCoreGo engine cfg lang pluralSelect allNamespaces ns returnObjects dflt
        query restFallbacks firstFallback

/-- The translate call `t` of `transCore`. -/
def transCore (engine : Engine) (cfg : I18nConfig) (lang : Option String)
    (pluralSelect : Int → String) (allNamespaces : List (String × I18nDictionary))
    (key : String) (query : Option Query) (options : TransOptions) :
    Except JsError DicValue :=
  transCoreGo engine cfg lang pluralSelect allNamespaces options.ns
    options.returnObjects options.default query options.fallback key

/-- First key of a chain whose resolution is non-empty, with its value. -/
def firstHit (pluralSelect : Int → String) (cfg : I18nConfig)
    (allNamespaces : List (String × I18nDictionary)) (ns : Option String)
    (returnObjects : Bool) (query : Option Query) : List String → Option DicValue
  | [] => none
  | k :: ks =>
    match resolveValue pluralSelect cfg allNamespaces ns returnObjects k query with
    | some v => some v
    | none => firstHit pluralSelect cfg allNamespaces ns returnObjects query ks

/-- The last key a chain tries: the last fallback, or when there are no
fallbacks the key itself. -/
def lastKeyOf (key : String) : List String → String
  | [] => key
  | f :: fs => lastKeyOf f fs

/-- A concrete engine that formats every template to itself, used by the
concrete evaluations below. -/
def engineId : Engine := fun s _ _ => .ok s

/-- A concrete plural-category function. -/
def pluralOther : Int → String := fun _ => "other"

/-! ### Heap model of the deep clone (frame property of the dictionary)

The value-level model above cannot express the point of
`JSON.parse(JSON.stringify(dicValue))`: `objectInterpolation` mutates its
argument's object graph in place, and the clone is what keeps those
writes away from the dictionary owned by the loader.  This section gives
a small JS heap — objects are addressed records of strings and
references — with the clone allocating only fresh addresses and the
interpolation walk writing only to addresses reachable from its
argument.  String interpolation itself is pure; it is abstracted by a
`subst` function here. -/

/-- A stored field value: a string, or a reference to another object. -/
inductive HVal where
  | hstr (s : String)
  | href (a : Nat)
deriving DecidableEq, Repr

/-- An object: fields in insertion order. -/
abbrev HObj := List (String × HVal)

/-- A JS heap: an allocation counter and a store. -/
structure Heap where
  nextAddr : Nat
  store : List (Nat × HObj)
deriving Repr

/-- Reads the object at an address. -/
def Heap.get (h : Heap) (a : Nat) : Option HObj :=
  (h.store.find? (fun e => e.1 == a)).map (fun e => e.2)

/-- Overwrites the object at an address (in-place mutation of the
object's fields). -/
def Heap.set (h : Heap) (a : Nat) (o : HObj) : Heap :=
  { h with store := h.store.map (fun e => if e.1 == a then (a, o) else e) }

/-- Allocates a fresh object. -/
def Heap.alloc (h : Heap) (o : HObj) : Heap × Nat :=
  ({ nextAddr := h.nextAddr + 1, store := (h.nextAddr, o) :: h.store }, h.nextAddr)

/-- Well-formed heap: every stored address is below the counter. -/
def Heap.wf (h : Heap) : Prop :=
  ∀ e ∈ h.store, e.1 < h.nextAddr

/-- Every reference of the object points at or above `N`. -/
def RefsAbove (N : Nat) (o : HObj) : Prop :=
  ∀ kv ∈ o, ∀ b, kv.2 = HVal.href b → N ≤ b

/-- Every object stored at or above `N` only references at or above `N`
(the fresh part of the heap is closed). -/
def GoodAbove (N : Nat) (h : Heap) : Prop :=
  ∀ a o, h.get a = some o → N ≤ a → RefsAbove N o

/-- The value is a string or a reference at or above `N`. -/
def ValAbove (N : Nat) : HVal → Prop
  | .hstr _ => True
  | .href a => N ≤ a

/-- Clones the fields of one object with a given value-cloner (the
recursion of `JSON.parse(JSON.stringify(...))` one level down). -/
def cloneFieldsWith (cv : Heap → HVal → Option (Heap × HVal)) :
    Heap → HObj → Option (Heap × HObj)
  | h, [] => some (h, [])
  | h, (k, v) :: rest =>
    match cv h v with
    | none => none
    | some (h2, v2) =>
      match cloneFieldsWith cv h2 rest with
      | none => none
      | some (h3, rest2) => some (h3, (k, v2) :: rest2)

/-- One unfolding of the deep clone. -/
def cloneValStep (cv : Heap → HVal → Option (Heap × HVal)) (h : Heap) :
    HVal → Option (Heap × HVal)
  | .hstr s => some (h, .hstr s)
  | .href a =>
    match h.get a with
    | none => none
    | some o =>
      match cloneFieldsWith cv h o with
      | none => none
      | some (h2, o2) =>
        let al := h2.alloc o2
        some (al.1, .href al.2)

/-- The deep clone `JSON.parse(JSON.stringify(value))`: every object
reachable from the value is rebuilt at a fresh address.  The fuel bounds
the reference depth; `JSON.stringify` itself throws on cyclic values, so
running out of fuel (`none`) is the model of that abort. -/
def cloneVal : Nat → Heap → HVal → Option (Heap × HVal)
  | 0 => fun h v =>
    match v with
    | .hstr s => some (h, .hstr s)
    | .href _ => none
  | fuel + 1 => fun h v => cloneValStep (cloneVal fuel) h v

/-- The field walk of `objectInterpolation` with a given recursive
visitor for referenced objects: a string field is replaced by its
interpolation (`subst`), a reference field is recursed into. -/
def objInterpFieldsWith (go : Heap → Nat → Option Heap) (subst : String → String) :
    Heap → HObj → Option (Heap × HObj)
  | h, [] => some (h, [])
  | h, (k, .hstr s) :: rest =>
    match objInterpFieldsWith go subst h rest with
    | none => none
    | some (h2, rest2) => some (h2, (k, .hstr (subst s)) :: rest2)
  | h, (k, .href b) :: rest =>
    match go h b with
    | none => none
    | some h2 =>
      match objInterpFieldsWith go subst h2 rest with
      | none => none
      | some (h3, rest2) => some (h3, (k, .href b) :: rest2)

/-- The in-place mutation of `objectInterpolation` (under a nonempty
query): rewrite the string fields of the object at `a` and recurse into
its referenced objects.  Fuel exhaustion (`none`) models the
non-termination of the source on a cyclic object graph. -/
def objInterpHeap (subst : String → String) : Nat → Heap → Nat → Option Heap
  | 0, _, _ => none
  | fuel + 1, h, a =>
    match h.get a with
    | none => none
    | some o =>
      match objInterpFieldsWith (objInterpHeap subst fuel) subst h o with
      | none => none
      | some (h2, o2) => some (h2.set a o2)

/-- The value preparation of the translate call, heap level:
`typeof dicValue === 'object' ? JSON.parse(JSON.stringify(dicValue)) :
dicValue` followed by `interpolateUnknown` — a string is interpolated
as a pure value, an object is deep-cloned and then mutated in place by
`objectInterpolation`. -/
def transValueHeap (subst : String → String) (fuelC fuelI : Nat) (h : Heap) :
    HVal → Option (Heap × HVal)
  | .hstr s => some (h, .hstr (subst s))
  | .href a =>
    match cloneVal fuelC h (.href a) with
    | none => none
    | some (h1, .hstr s) => some (h1, .hstr s)
    | some (h1, .href a2) =>
      match objInterpHeap subst fuelI h1 a2 with
      | none => none
      | some h2 => some (h2, .href a2)

/-- A concrete interpolation for the witness. -/
def substC9 : String → String := fun s => s ++ "!"

/-- A heap holding one dictionary template object at address 0. -/
def heapC9 : Heap :=
  { nextAddr := 1, store := [(0, [("greeting", HVal.hstr "hello")])] }

/-- The heap after cloning the template to address 1 and interpolating
the clone in place: the original at address 0 is untouched. -/
def heapC9out : Heap :=
  { nextAddr := 2,
    store := [(1, [("greeting", HVal.hstr "hello!")]),
              (0, [("greeting", HVal.hstr "hello")])] }

/-! ### Theorems -/

/-- If `ProcessNodes` returns normally, the unconsumed suffix of the
cursor is no longer than its input. -/
theorem ProcessNodes_rest_le (fuel : Nat) :
    ∀ (toDo : List MessagePart) (accum : PartsTree) (t : PartsTree)
      (r : List MessagePart),
      ProcessNodes fuel toDo accum = .ok (t, r) → r.length ≤ toDo.length := by
  induction fuel with
  | zero => intro toDo accum t r h; simp [ProcessNodes] at h
  | succ fuel ih =>
    intro toDo accum t r h
    match toDo with
    | [] =>
      simp [ProcessNodes] at h
      simp [h.2]
    | p :: rest =>
      match p with
      | .markup kind name =>
        rw [ProcessNodes] at h
        by_cases hk : kind = "open"
        · rw [if_pos hk] at h
          cases hrec : ProcessNodes fuel rest [] with
          | error e => rw [hrec] at h; exact absurd h (by simp)
          | ok res =>
            rw [hrec] at h
            match res with
            | (tree, toDo1) =>
              match toDo1 with
              | [] => exact absurd h (by simp)
              | c :: toDo2 =>
                have h1 := ih rest [] tree (c :: toDo2) hrec
                have h2 := ih toDo2 (accum ++ [TreeNode.markup name tree]) t r h
                simp at h1 ⊢
                omega
        · rw [if_neg hk] at h
          by_cases hc : kind = "close"
          · rw [if_pos hc] at h
            simp at h
            simp [← h.2]
          · rw [if_neg hc] at h
            have := ih rest (accum ++ [TreeNode.part (.markup kind name)]) t r h
            simp; omega
      | .literal v =>
        rw [ProcessNodes] at h
        have := ih rest (accum ++ [TreeNode.part (.literal v)]) t r h
        simp; omega
      | .number ps =>
        rw [ProcessNodes] at h
        have := ih rest (accum ++ [TreeNode.part (.number ps)]) t r h
        simp; omega
      | .datetime ps =>
        rw [ProcessNodes] at h
        have := ih rest (accum ++ [TreeNode.part (.datetime ps)]) t r h
        simp; omega
      | .fallback s =>
        rw [ProcessNodes] at h
        have := ih rest (accum ++ [TreeNode.part (.fallback s)]) t r h
        simp; omega
      | .other t0 =>
        rw [ProcessNodes] at h
        have := ih rest (accum ++ [TreeNode.part (.other t0)]) t r h
        simp; omega

/-- With fuel exceeding the cursor length the fuel-exhaustion branch is
unreachable, so `MessagePartsToTree`'s fuel choice is faithful to the
unbounded recursion of the source. -/
theorem ProcessNodes_fuel_sufficient (fuel : Nat) :
    ∀ (toDo : List MessagePart) (accum : PartsTree),
      toDo.length < fuel → ProcessNodes fuel toDo accum ≠ .error .modelFuel := by
  induction fuel with
  | zero => intro toDo accum h; omega
  | succ fuel ih =>
    intro toDo accum hlt
    match toDo with
    | [] => simp [ProcessNodes]
    | p :: rest =>
      have hrest : rest.length < fuel := by simp at hlt; omega
      match p with
      | .markup kind name =>
        rw [ProcessNodes]
        by_cases hk : kind = "open"
        · rw [if_pos hk]
          cases hrec : ProcessNodes fuel rest [] with
          | error e =>
            have := ih rest [] hrest
            intro hcontra
            simp at hcontra
            exact this (by rw [hrec, hcontra])
          | ok res =>
            match res with
            | (tree, toDo1) =>
              match toDo1 with
              | [] => simp
              | c :: toDo2 =>
                have h1 := ProcessNodes_rest_le fuel rest [] tree (c :: toDo2) hrec
                have h2 : toDo2.length < fuel := by simp at h1; omega
                exact ih toDo2 (accum ++ [TreeNode.markup name tree]) h2
        · rw [if_neg hk]
          by_cases hc : kind = "close"
          · rw [if_pos hc]; simp
          · rw [if_neg hc]
            exact ih rest (accum ++ [TreeNode.part (.markup kind name)]) hrest
      | .literal v => rw [ProcessNodes]; exact ih rest _ hrest
      | .number ps => rw [ProcessNodes]; exact ih rest _ hrest
      | .datetime ps => rw [ProcessNodes]; exact ih rest _ hrest
      | .fallback s => rw [ProcessNodes]; exact ih rest _ hrest
      | .other t0 => rw [ProcessNodes]; exact ih rest _ hrest

theorem countOpens_append (a b : List MessagePart) :
    countOpens (a ++ b) = countOpens a + countOpens b := by
  induction a with
  | nil => simp [countOpens]
  | cons p r ih => simp [countOpens, ih]; omega

theorem flattenNode_length_pos (n : TreeNode) : 0 < (flattenNode n).length := by
  cases n with
  | part p => simp [flattenNode]
  | markup name child => simp [flattenNode]

theorem flattenForest_nil_iff (t : List TreeNode) :
    flattenForest t = [] ↔ t = [] := by
  cases t with
  | nil => simp [flattenForest]
  | cons n rest =>
    simp [flattenForest]
    intro h h2
    have := flattenNode_length_pos n
    rw [h] at this
    simp at this

/-- At a stopper the worker returns the accumulator and leaves the
stopper unconsumed. -/
theorem ProcessNodes_stopper (rest : List MessagePart) (accum : PartsTree)
    (fuel : Nat) (hstop : Stopper rest) (hfuel : rest.length < fuel) :
    ProcessNodes fuel rest accum = .ok (accum, rest) := by
  match fuel with
  | 0 => omega
  | f + 1 =>
    rcases hstop with h | ⟨nm, r2, h⟩
    · subst h; rw [ProcessNodes]
    · subst h
      rw [ProcessNodes]
      simp

/-- Round trip of reconstruction: running the worker on the
serialisation of a valid forest followed by a stopper consumes exactly
the serialisation, appends the forest to the accumulator, and leaves the
stopper unconsumed.  Induction is on an explicit bound `N` for the
serialisation length (the forest type is a nested inductive). -/
theorem ProcessNodes_flatten (N : Nat) :
    ∀ (t : PartsTree), (flattenForest t).length ≤ N → validForest t = true →
      ∀ (rest : List MessagePart) (accum : PartsTree) (fuel : Nat),
        Stopper rest → (flattenForest t).length + rest.length < fuel →
        ProcessNodes fuel (flattenForest t ++ rest) accum = .ok (accum ++ t, rest) := by
  induction N with
  | zero =>
    intro t hlen hvalid rest accum fuel hstop hfuel
    have ht : t = [] := by
      have h0 : flattenForest t = [] := List.length_eq_zero.mp (Nat.le_zero.mp hlen)
      exact (flattenForest_nil_iff t).mp h0
    subst ht
    simp only [flattenForest, List.nil_append, List.append_nil]
    simp only [flattenForest, List.length_nil, Nat.zero_add] at hfuel
    exact ProcessNodes_stopper rest accum fuel hstop hfuel
  | succ N ih =>
    intro t hlen hvalid rest accum fuel hstop hfuel
    match t with
    | [] =>
      simp only [flattenForest, List.nil_append, List.append_nil]
      simp only [flattenForest, List.length_nil, Nat.zero_add] at hfuel
      exact ProcessNodes_stopper rest accum fuel hstop hfuel
    | .part p :: t2 =>
      have hflat : flattenForest (TreeNode.part p :: t2) ++ rest
          = p :: (flattenForest t2 ++ rest) := by
        simp [flattenForest, flattenNode]
      have hlen2 : (flattenForest t2).length ≤ N := by
        simp [flattenForest, flattenNode] at hlen; omega
      simp only [validForest, validNode, Bool.and_eq_true] at hvalid
      have hfuel2 : (flattenForest t2).length + rest.length + 1 < fuel := by
        simp [flattenForest, flattenNode] at hfuel; omega
      match fuel with
      | 0 => omega
      | f + 1 =>
        rw [hflat]
        have hf2 : (flattenForest t2).length + rest.length < f := by omega
        match p with
        | .literal v =>
          rw [ProcessNodes, ih t2 hlen2 hvalid.2 rest _ f hstop hf2]
          simp
        | .number ps =>
          rw [ProcessNodes, ih t2 hlen2 hvalid.2 rest _ f hstop hf2]
          simp
        | .datetime ps =>
          rw [ProcessNodes, ih t2 hlen2 hvalid.2 rest _ f hstop hf2]
          simp
        | .fallback s =>
          rw [ProcessNodes, ih t2 hlen2 hvalid.2 rest _ f hstop hf2]
          simp
        | .other ty =>
          rw [ProcessNodes, ih t2 hlen2 hvalid.2 rest _ f hstop hf2]
          simp
        | .markup kind nm =>
          have hko : ¬(kind = "open") := by
            have := hvalid.1
            simp [validLeaf] at this
            exact this.1
          have hkc : ¬(kind = "close") := by
            have := hvalid.1
            simp [validLeaf] at this
            exact this.2
          rw [ProcessNodes]
          simp only [if_neg hko, if_neg hkc]
          rw [ih t2 hlen2 hvalid.2 rest _ f hstop hf2]
          simp
    | .markup nm child :: t2 =>
      have hflat : flattenForest (TreeNode.markup nm child :: t2) ++ rest
          = MessagePart.markup "open" nm ::
              (flattenForest child ++
                (MessagePart.markup "close" nm :: (flattenForest t2 ++ rest))) := by
        simp [flattenForest, flattenNode]
      have hlensum : (flattenForest child).length + (flattenForest t2).length + 2
          ≤ N + 1 := by
        simp [flattenForest, flattenNode] at hlen; omega
      simp only [validForest, validNode, Bool.and_eq_true] at hvalid
      have hfuelsum : (flattenForest child).length + (flattenForest t2).length + 2
          + rest.length < fuel := by
        simp [flattenForest, flattenNode] at hfuel; omega
      match fuel with
      | 0 => omega
      | f + 1 =>
        rw [hflat]
        rw [ProcessNodes]
        have hinner := ih child (by omega) hvalid.1
          (MessagePart.markup "close" nm :: (flattenForest t2 ++ rest)) [] f
          (Or.inr ⟨nm, flattenForest t2 ++ rest, rfl⟩)
          (by simp; omega)
        rw [List.nil_append] at hinner
        rw [hinner]
        simp only [reduceIte]
        rw [ih t2 (by omega) hvalid.2 rest (accum ++ [TreeNode.markup nm child]) f hstop
          (by omega)]
        simp

/-- The serialisation of a valid forest has exactly one markup `open`
part per `Markup` node. -/
theorem countOpens_flatten (N : Nat) :
    ∀ (t : PartsTree), (flattenForest t).length ≤ N → validForest t = true →
      countOpens (flattenForest t) = countMarkupForest t := by
  induction N with
  | zero =>
    intro t hlen _
    have ht : t = [] := (flattenForest_nil_iff t).mp
      (List.length_eq_zero.mp (Nat.le_zero.mp hlen))
    subst ht
    simp [flattenForest, countOpens, countMarkupForest]
  | succ N ih =>
    intro t hlen hvalid
    match t with
    | [] => simp [flattenForest, countOpens, countMarkupForest]
    | .part p :: t2 =>
      simp only [validForest, validNode, Bool.and_eq_true] at hvalid
      have hop : isOpenPart p = false := by
        match p with
        | .markup kind nm =>
          simp [validLeaf] at hvalid
          simp [isOpenPart, hvalid.1.1]
        | .literal v => rfl
        | .number ps => rfl
        | .datetime ps => rfl
        | .fallback s => rfl
        | .other ty => rfl
      have hlen2 : (flattenForest t2).length ≤ N := by
        simp [flattenForest, flattenNode] at hlen; omega
      have h2 := ih t2 hlen2 hvalid.2
      simp [flattenForest, flattenNode, countOpens, hop, countMarkupForest,
        countMarkupNode, h2]
    | .markup nm child :: t2 =>
      simp only [validForest, validNode, Bool.and_eq_true] at hvalid
      have hc := ih child (by simp [flattenForest, flattenNode] at hlen; omega) hvalid.1
      have h2 := ih t2 (by simp [flattenForest, flattenNode] at hlen; omega) hvalid.2
      simp [flattenForest, flattenNode, countOpens, countOpens_append, isOpenPart,
        countMarkupForest, countMarkupNode, hc, h2]
      omega

/-- Scanning the serialisation of a valid forest followed by `rest`
reaches exactly the forest's markup depth (offset by the starting
depth), then continues with `rest`. -/
theorem seqDepth_flatten (N : Nat) :
    ∀ (t : PartsTree), (flattenForest t).length ≤ N → validForest t = true →
      ∀ (rest : List MessagePart) (d : Nat),
        seqMaxDepthAux (flattenForest t ++ rest) d
          = max (depthContrib t d) (seqMaxDepthAux rest d) := by
  induction N with
  | zero =>
    intro t hlen _ rest d
    have ht : t = [] := (flattenForest_nil_iff t).mp
      (List.length_eq_zero.mp (Nat.le_zero.mp hlen))
    subst ht
    simp [flattenForest, depthContrib, forestDepth]
  | succ N ih =>
    intro t hlen hvalid rest d
    match t with
    | [] => simp [flattenForest, depthContrib, forestDepth]
    | .part p :: t2 =>
      simp only [validForest, validNode, Bool.and_eq_true] at hvalid
      have hop : isOpenPart p = false := by
        match p with
        | .markup kind nm =>
          simp [validLeaf] at hvalid
          simp [isOpenPart, hvalid.1.1]
        | .literal v => rfl
        | .number ps => rfl
        | .datetime ps => rfl
        | .fallback s => rfl
        | .other ty => rfl
      have hcl : isClosePart p = false := by
        match p with
        | .markup kind nm =>
          simp [validLeaf] at hvalid
          simp [isClosePart, hvalid.1.2]
        | .literal v => rfl
        | .number ps => rfl
        | .datetime ps => rfl
        | .fallback s => rfl
        | .other ty => rfl
      have hlen2 : (flattenForest t2).length ≤ N := by
        simp [flattenForest, flattenNode] at hlen; omega
      have hflat : flattenForest (TreeNode.part p :: t2) ++ rest
          = p :: (flattenForest t2 ++ rest) := by
        simp [flattenForest, flattenNode]
      rw [hflat]
      rw [seqMaxDepthAux, if_neg (by simp [hop]), if_neg (by simp [hcl])]
      rw [ih t2 hlen2 hvalid.2 rest d]
      have hD : forestDepth (TreeNode.part p :: t2) = forestDepth t2 := by
        simp [forestDepth, depthNode]
      simp only [depthContrib, hD]
    | .markup nm child :: t2 =>
      simp only [validForest, validNode, Bool.and_eq_true] at hvalid
      have hlenc : (flattenForest child).length ≤ N := by
        simp [flattenForest, flattenNode] at hlen; omega
      have hlen2 : (flattenForest t2).length ≤ N := by
        simp [flattenForest, flattenNode] at hlen; omega
      have hflat : flattenForest (TreeNode.markup nm child :: t2) ++ rest
          = MessagePart.markup "open" nm ::
              (flattenForest child ++
                (MessagePart.markup "close" nm :: (flattenForest t2 ++ rest))) := by
        simp [flattenForest, flattenNode]
      rw [hflat]
      rw [seqMaxDepthAux, if_pos (by simp [isOpenPart])]
      rw [ih child hlenc hvalid.1 _ (d + 1)]
      rw [seqMaxDepthAux, if_neg (by simp [isOpenPart]), if_pos (by simp [isClosePart])]
      simp only [Nat.add_sub_cancel]
      rw [ih t2 hlen2 hvalid.2 rest d]
      have hD : forestDepth (TreeNode.markup nm child :: t2)
          = max (1 + forestDepth child) (forestDepth t2) := by
        simp [forestDepth, depthNode]
      simp only [depthContrib, hD]
      split_ifs <;> omega

/-- C1: for every well-formed part sequence (the serialisation of a
valid markup forest) with N matched open/close pairs, `MessagePartsToTree`
(= `ProcessPartsList`) returns exactly that forest: it has exactly N
`Markup` nodes (one per open part), each `Markup` node's children are
exactly the parts and nodes strictly between its open and its close, and
the tree's nesting depth equals the markup nesting depth of the source
sequence — multiply-nested tags are not flattened. -/
theorem claim1_markup_balance (parts : List MessagePart) (t : PartsTree)
    (hvalid : validForest t = true) (hflat : flattenForest t = parts) :
    MessagePartsToTree parts = .ok t ∧
    countMarkupForest t = countOpens parts ∧
    forestDepth t = seqMaxDepth parts := by
  subst hflat
  refine ⟨?_, ?_, ?_⟩
  · have h := ProcessNodes_flatten (flattenForest t).length t le_rfl hvalid [] []
      ((flattenForest t).length + 1) (Or.inl rfl) (by simp)
    rw [List.append_nil, List.nil_append] at h
    rw [MessagePartsToTree, h]
    rfl
  · exact (countOpens_flatten (flattenForest t).length t le_rfl hvalid).symm
  · have h := seqDepth_flatten (flattenForest t).length t le_rfl hvalid [] 0
    rw [List.append_nil] at h
    rw [seqMaxDepth, h]
    simp only [seqMaxDepthAux, depthContrib]
    split_ifs with h0 <;> omega

theorem claim1_markup_balance_witness :
    validForest exampleForest = true ∧
    (MessagePartsToTree (flattenForest exampleForest) = .ok exampleForest ∧
      countMarkupForest exampleForest = countOpens (flattenForest exampleForest) ∧
      forestDepth exampleForest = seqMaxDepth (flattenForest exampleForest)) :=
  ⟨by decide, claim1_markup_balance (flattenForest exampleForest) exampleForest (by decide) rfl⟩

/-- C3 (code bug): the claim — and the spec — state that reconstruction
of a sequence containing a markup open with no following close
terminates without raising, producing a `Markup` node with the gathered
children.  The code instead crashes: after the recursive call returns,
`toDo.shift()` yields `undefined` and `closeNode.kind` raises a
`TypeError`.  This theorem evaluates the model at two such failing
inputs (an unmatched open alone, and an unmatched open followed by a
literal). -/
theorem claim3_unmatched_open_raises :
    MessagePartsToTree [MessagePart.markup "open" "b"]
      = .error (.typeError "Cannot read properties of undefined (reading 'kind')") ∧
    MessagePartsToTree [MessagePart.markup "open" "b", MessagePart.literal "hello"]
      = .error (.typeError "Cannot read properties of undefined (reading 'kind')") :=
  ⟨rfl, rfl⟩

/-- C4 (corrected): for templates that begin with one of the
target-grammar leading tokens `.match`, `.local`, `.input`, the
normalisation step is skipped and the template reaches the
message-formatting engine unmodified.  (The claim's further case of a
leading double brace is refuted by `claim4_counterexample`: the
detection function only tests the three dot-tokens, deliberately
treating a leading double brace as native placeholder syntax.) -/
theorem claim4_mf2_passthrough (text : String)
    (h : strStartsWith text ".match" = true ∨ strStartsWith text ".local" = true ∨
      strStartsWith text ".input" = true) :
    isMF2ComplexMessage text = true ∧ mfTextOf text = text := by
  have hb : isMF2ComplexMessage text = true := by
    rw [isMF2ComplexMessage]
    rcases h with h | h | h <;> simp [h]
  exact ⟨hb, by rw [mfTextOf, if_pos hb]⟩

theorem claim4_mf2_passthrough_witness :
    isMF2ComplexMessage ".match \x7b\x7bn\x7d\x7d" = true ∧
    mfTextOf ".match \x7b\x7bn\x7d\x7d" = ".match \x7b\x7bn\x7d\x7d" :=
  claim4_mf2_passthrough ".match \x7b\x7bn\x7d\x7d" (Or.inl rfl)

/-- C4 counterexample: a template that begins with a double brace is not
detected as a target-grammar message, and the normalisation step rewrites
it — it is not handed to the engine unmodified, contrary to the claim. -/
theorem claim4_counterexample :
    isMF2ComplexMessage "\x7b\x7bfoo\x7d\x7d" = false ∧
    mfTextOf "\x7b\x7bfoo\x7d\x7d" = "\x7b$foo\x7d" ∧
    ("\x7b$foo\x7d" : String) ≠ "\x7b\x7bfoo\x7d\x7d" :=
  ⟨rfl, rfl, by decide⟩

/-- C8 (code bug): the rewrite does prefix digit-leading tag names with
an underscore, and the markup-node (open/close span) path does strip the
alias before the component lookup — the first three conjuncts evaluate
this.  But the claim (and the comment on `convertToMf2`, which promises
the alias "is fixed up in HetListToDOMTree()") also covers standalone
tags, and there the source looks the name up as-is: a numeric
standalone tag reaches the component map as an underscore-prefixed name,
the lookup misses, and `React.cloneElement(undefined)` raises — the
fourth conjunct evaluates the code at that failing input. -/
theorem claim8_numeric_alias :
    convertToMf2 "<0>hello</0>" = "\x7b#_0\x7dhello\x7b/_0\x7d" ∧
    convertToMf2 "<0/>" = "\x7b#_0/\x7d" ∧
    TreeToElements [TreeNode.markup "_0" [TreeNode.part (.literal "hello")]]
        (Components.arr ["bold"])
      = .ok [RNode.clone "bold" [RNode.text "hello"]] ∧
    TreeToElements [TreeNode.part (.markup "standalone" "_0")] (Components.arr ["bold"])
      = .error (.reactError "cloneElement: element is undefined") :=
  ⟨rfl, rfl, rfl, rfl⟩

/-- C10: a leaf part whose type is none of the five handled ones makes
the Component Mapper abort with the explicit unreachable error naming
that type; for the five handled types, the type dispatch itself never
raises the unreachable error (the standalone-markup branch may raise a
different, cloneElement error, which is not the dispatch). -/
theorem claim10_unreachable_part_type {α : Type} (components : Components α)
    (ty : String) (p : MessagePart) :
    (handledTypes.contains ty = false →
      TreeToElements [TreeNode.part (MessagePart.other ty)] components
        = .error (.unreachable ty)) ∧
    (p.isEngineCorePart = true →
      ∀ s, TreeToElements [TreeNode.part p] components ≠ .error (.unreachable s)) := by
  constructor
  · intro _
    simp [TreeToElements, treeNodeToElements, partToElements]
  · intro hp s
    match p with
    | .literal v => simp [TreeToElements, treeNodeToElements, partToElements]
    | .markup kind nm =>
      simp [TreeToElements, treeNodeToElements, partToElements]
      cases componentsLookup components nm <;> simp
    | .number ps => simp [TreeToElements, treeNodeToElements, partToElements]
    | .datetime ps => simp [TreeToElements, treeNodeToElements, partToElements]
    | .fallback src => simp [TreeToElements, treeNodeToElements, partToElements]
    | .other ty2 => simp [MessagePart.isEngineCorePart] at hp

theorem claim10_unreachable_part_type_witness :
    TreeToElements [TreeNode.part (MessagePart.other "weird")]
        (Components.arr ([] : List String))
      = .error (.unreachable "weird") ∧
    TreeToElements [TreeNode.part (MessagePart.literal "x")]
        (Components.arr ([] : List String))
      ≠ .error (.unreachable "boom") :=
  ⟨(claim10_unreachable_part_type (Components.arr []) "weird" (MessagePart.literal "x")).1
      (by decide),
   (claim10_unreachable_part_type (Components.arr []) "weird" (MessagePart.literal "x")).2
      rfl "boom"⟩

/-- C2: with an integer `count = n` in the query, `plural` returns the
first of `base_n`, `base_<category(n)>`, `base.n`, `base.<category(n)>`
that resolves to a defined dictionary value, and the unchanged base key
when none resolves; with no query or a non-number `count`, the base key
is returned unchanged. -/
theorem claim2_plural_priority (pluralSelect : Int → String) (dic : I18nDictionary)
    (key : String) (cfg : I18nConfig) (query : Option Query) :
    plural pluralSelect dic key cfg query =
      match query with
      | some q =>
        match qget q "count" with
        | some (.num n) =>
          ((pluralCandidates pluralSelect key n).find?
            (fun c => (getDicValue dic c cfg false).isSome)).getD key
        | _ => key
      | none => key := by
  match query with
  | none => rfl
  | some q =>
    match hq : qget q "count" with
    | some (.num n) =>
      simp only [plural, hq, pluralCandidates]
      by_cases h1 : (getDicValue dic (key ++ "_" ++ toString n) cfg false).isSome
      · simp [List.find?, h1]
      · by_cases h2 : (getDicValue dic (key ++ "_" ++ pluralSelect n) cfg false).isSome
        · simp [List.find?, h1, h2]
        · by_cases h3 : (getDicValue dic (key ++ "." ++ toString n) cfg false).isSome
          · simp [List.find?, h1, h2, h3]
          · by_cases h4 : (getDicValue dic (key ++ "." ++ pluralSelect n) cfg false).isSome
            · simp [List.find?, h1, h2, h3, h4]
            · simp [List.find?, h1, h2, h3, h4]
    | some (.str s) => simp [plural, hq]
    | none => simp [plural, hq]

/-- A dead-ended reduce stays at the empty object. -/
theorem dicWalk_emptyObj (segs : List String) :
    (match dicWalk (.obj []) segs with
      | some w => w
      | none => DicValue.obj []) = DicValue.obj [] := by
  cases segs with
  | nil => rfl
  | cons s rest => simp [dicWalk, dicChildGet, List.find?]

/-- The reduce of `getDicValue` computes the walk, with dead ends
represented by the empty object. -/
theorem getDicFold_walk (segs : List String) :
    ∀ (v : DicValue),
      segs.foldl getDicStep v =
        match dicWalk v segs with
        | some w => w
        | none => DicValue.obj [] := by
  induction segs with
  | nil => intro v; cases v <;> rfl
  | cons s rest ih =>
    intro v
    rw [List.foldl_cons]
    match v with
    | .str s2 =>
      have hstep : getDicStep (.str s2) s = .obj [] := rfl
      rw [hstep, ih (.obj [])]
      simp [dicWalk, dicWalk_emptyObj]
    | .obj entries =>
      cases hc : dicChildGet (.obj entries) s with
      | none =>
        have hstep : getDicStep (.obj entries) s = .obj [] := by
          simp [getDicStep, hc]
        rw [hstep, ih (.obj [])]
        simp [dicWalk, hc, dicWalk_emptyObj]
      | some res =>
        have hstep : getDicStep (.obj entries) s = res := by
          simp only [getDicStep, hc]
          match res with
          | .str s3 => by_cases h : dicTruthy (.str s3) = true <;> simp [h]
          | .obj m => simp [dicTruthy]
          | .arr items => simp [dicTruthy]
        rw [hstep, ih res]
        simp [dicWalk, hc]
    | .arr items =>
      cases hc : dicChildGet (.arr items) s with
      | none =>
        have hstep : getDicStep (.arr items) s = .obj [] := by
          simp [getDicStep, hc]
        rw [hstep, ih (.obj [])]
        simp [dicWalk, hc, dicWalk_emptyObj]
      | some res =>
        have hstep : getDicStep (.arr items) s = res := by
          simp only [getDicStep, hc]
          match res with
          | .str s3 => by_cases h : dicTruthy (.str s3) = true <;> simp [h]
          | .obj m => simp [dicTruthy]
          | .arr items2 => simp [dicTruthy]
        rw [hstep, ih res]
        simp [dicWalk, hc]

/-- C7 (amended): under the default options (objects not requested),
`getDicValue` returns a defined value exactly when the segment walk
reaches a string leaf — in particular a falsy-but-defined empty-string
leaf is preserved, not collapsed to missing — and returns the
`undefined` sentinel exactly when no string leaf lies at the key's path:
when the key is genuinely absent, or when it resolves to a composite
value (the case the original claim misses, refuted by
`claim7_counterexample`).  "Key not present" thus stays distinguishable
from "key present with empty value". -/
theorem claim7_resolution_walk (dic : I18nDictionary) (key : String)
    (cfg : I18nConfig) :
    getDicValue dic key cfg false =
      match dicWalk (.obj dic) (splitKeyParts cfg key) with
      | some (.str s) => some (.str s)
      | _ => none := by
  unfold getDicValue
  rw [if_neg (by simp)]
  rw [getDicFold_walk (splitKeyParts cfg key) (.obj dic)]
  cases hw : dicWalk (.obj dic) (splitKeyParts cfg key) with
  | none => simp
  | some w => cases w <;> simp

/-- C7 counterexample: with the dictionary mapping key `a` to the nested
object mapping `b` to a string, looking up `a` (default options) yields
the `undefined` sentinel even though the key `a` is present — its value
is a composite, not an absent entry — so `undefined` is not returned
"exactly when the key is genuinely absent".  The second conjunct
evaluates the walk to show the key is present; the third shows the
falsy-but-defined empty-string leaf really is preserved (the part of the
claim that holds). -/
theorem claim7_counterexample :
    getDicValue [("a", DicValue.obj [("b", DicValue.str "x")])] "a" {} false = none ∧
    dicWalk (.obj [("a", DicValue.obj [("b", DicValue.str "x")])])
        (splitKeyParts {} "a") = some (DicValue.obj [("b", DicValue.str "x")]) ∧
    getDicValue [("e", DicValue.str "")] "e" {} false = some (DicValue.str "") :=
  ⟨rfl, rfl, rfl⟩

/-- C5: with no custom formatter configured, if the engine raises its
distinguished syntax-error kind during interpolation, the original
uninterpolated template is returned verbatim and no error propagates;
any error of a different kind propagates unchanged; an empty or
undefined input template returns the empty string.  The same recovery
policy holds for the markup-formatting call `formatElements`: a syntax
error from `formatToParts` returns the original template, other errors
propagate. -/
theorem claim5_syntax_error_recovery {α : Type} (engine : Engine)
    (engineParts : PartsEngine) (t : String) (query : Option Query)
    (cfg : I18nConfig) (lang : Option String) (elements : Components α)
    (hfmt : cfg.format = none) :
    (interpolation engine none query cfg lang = .ok "") ∧
    (interpolation engine (some "") query cfg lang = .ok "") ∧
    (∀ m, engine (mfTextOf t) lang query = .error (.msgSyntax m) → t ≠ "" →
      interpolation engine (some t) query cfg lang = .ok t) ∧
    (∀ e, engine (mfTextOf t) lang query = .error e → isSyntaxErr e = false → t ≠ "" →
      interpolation engine (some t) query cfg lang = .error e) ∧
    (∀ m, engineParts (convertToMf2 t) = .error (.msgSyntax m) →
      formatElements engineParts t elements = .ok (.inl t)) ∧
    (∀ e, engineParts (convertToMf2 t) = .error e → isSyntaxErr e = false →
      formatElements engineParts t elements = .error e) := by
  refine ⟨rfl, rfl, ?_, ?_, ?_, ?_⟩
  · intro m hm ht
    simp only [interpolation, hfmt]
    rw [if_neg (by simp [ht])]
    simp [interpolationEngineCall, hm, isSyntaxErr]
  · intro e he hkind ht
    simp only [interpolation, hfmt]
    rw [if_neg (by simp [ht])]
    simp [interpolationEngineCall, he, hkind]
  · intro m hm
    simp [formatElements, hm, isSyntaxErr]
  · intro e he hkind
    simp [formatElements, he, hkind]

theorem claim5_syntax_error_recovery_witness :
    interpolation engineSyntaxFail (some "hello <b") none {} none = .ok "hello <b" ∧
    formatElements enginePartsFail "hello <b" (Components.arr ([] : List String))
      = .ok (.inl "hello <b") :=
  ⟨(claim5_syntax_error_recovery engineSyntaxFail enginePartsFail "hello <b" none {} none
      (Components.arr ([] : List String)) rfl).2.2.1 "parse error" rfl (by decide),
   (claim5_syntax_error_recovery engineSyntaxFail enginePartsFail "hello <b" none {} none
      (Components.arr ([] : List String)) rfl).2.2.2.2.1 "parse error" rfl⟩

/-- The fallback chain, as one equation on the worker. -/
theorem transCoreGo_chain (engine : Engine) (cfg : I18nConfig) (lang : Option String)
    (pluralSelect : Int → String) (allNamespaces : List (String × I18nDictionary))
    (ns : Option String) (returnObjects : Bool) (dflt : Option DicValue)
    (fs : List String) :
    ∀ (key : String) (query : Option Query),
      transCoreGo engine cfg lang pluralSelect allNamespaces ns returnObjects dflt
          query fs key =
        match firstHit pluralSelect cfg allNamespaces ns returnObjects query (key :: fs) with
        | some v => interpolateUnknown engine cfg lang query v
        | none =>
          match dflt with
          | some d =>
            if dicTruthy d then interpolateUnknown engine cfg lang query d
            else .ok (.str (lastKeyOf key fs))
          | none => .ok (.str (lastKeyOf key fs)) := by
  induction fs with
  | nil =>
    intro key query
    simp only [transCoreGo]
    rw [show firstHit pluralSelect cfg allNamespaces ns returnObjects query [key]
      = match resolveValue pluralSelect cfg allNamespaces ns returnObjects key query with
        | some v => some v
        | none => none from by rw [firstHit, firstHit]]
    cases hr : resolveValue pluralSelect cfg allNamespaces ns returnObjects key query with
    | some v => simp
    | none => simp [lastKeyOf]
  | cons f fs2 ih =>
    intro key query
    simp only [transCoreGo]
    rw [show firstHit pluralSelect cfg allNamespaces ns returnObjects query (key :: f :: fs2)
      = match resolveValue pluralSelect cfg allNamespaces ns returnObjects key query with
        | some v => some v
        | none => firstHit pluralSelect cfg allNamespaces ns returnObjects query (f :: fs2)
      from by rw [firstHit]]
    cases hr : resolveValue pluralSelect cfg allNamespaces ns returnObjects key query with
    | some v => simp
    | none =>
      simp only
      rw [ih f query]
      rfl

/-- C6 (amended): the translate call tries the key and then each
fallback entry in order and returns the first non-empty resolution,
interpolated.  If none resolves: a truthy static `default` is returned
after interpolation — including when a fallback list was given and then
exhausted, a case the original claim excluded — and otherwise the last
key tried (which is the original raw key exactly when no fallbacks were
given, e.g. `ns:absent` against an empty dictionary, per the second
conjunct) is returned verbatim. -/
theorem claim6_fallback_chain :
    (∀ (engine : Engine) (cfg : I18nConfig) (lang : Option String)
      (pluralSelect : Int → String) (allNamespaces : List (String × I18nDictionary))
      (ns : Option String) (returnObjects : Bool) (dflt : Option DicValue)
      (fs : List String) (key : String) (query : Option Query),
      transCore engine cfg lang pluralSelect allNamespaces key query
          ⟨ns, returnObjects, fs, dflt⟩ =
        match firstHit pluralSelect cfg allNamespaces ns returnObjects query (key :: fs) with
        | some v => interpolateUnknown engine cfg lang query v
        | none =>
          match dflt with
          | some d =>
            if dicTruthy d then interpolateUnknown engine cfg lang query d
            else .ok (.str (lastKeyOf key fs))
          | none => .ok (.str (lastKeyOf key fs))) ∧
    transCore engineId {} none pluralOther [] "ns:absent" none {} =
      .ok (.str "ns:absent") := by
  constructor
  · intro engine cfg lang pluralSelect allNamespaces ns returnObjects dflt fs key query
    rw [transCore]
    exact transCoreGo_chain engine cfg lang pluralSelect allNamespaces ns returnObjects
      dflt fs key query
  · rfl

/-- C6 counterexample: with an empty dictionary, key `k`, fallback list
`[f]` and no default, the claim as stated says the original raw key `k`
is returned verbatim once no fallback resolves; the code returns the
last fallback key `f` instead.  And with a static default supplied
alongside the fallback list, the claim says the raw key is returned
(default only applies when no fallback list was given); the code
returns the interpolated default `D`. -/
theorem claim6_counterexample :
    transCore engineId {} none pluralOther [] "k" none
        { fallback := ["f"] } = .ok (.str "f") ∧
    ("f" : String) ≠ "k" ∧
    transCore engineId {} none pluralOther [] "k" none
        { fallback := ["f"], default := some (.str "D") } = .ok (.str "D") ∧
    ("D" : String) ≠ "k" :=
  ⟨rfl, by decide, rfl, by decide⟩

theorem Heap.get_alloc (h : Heap) (o : HObj) (a : Nat) :
    ((h.alloc o).1).get a = if a = h.nextAddr then some o else h.get a := by
  by_cases ha : a = h.nextAddr
  · subst ha; simp [Heap.alloc, Heap.get, List.find?]
  · have hne : (h.nextAddr == a) = false := by
      cases hb : (h.nextAddr == a) with
      | false => rfl
      | true =>
        have hb2 : h.nextAddr = a := by simpa using hb
        exact absurd hb2.symm ha
    simp [Heap.alloc, Heap.get, List.find?, hne, ha]

theorem Heap.get_set (h : Heap) (a : Nat) (o : HObj) (c : Nat) :
    (h.set a o).get c = if c = a then (h.get a).map (fun _ => o) else h.get c := by
  obtain ⟨n, store⟩ := h
  simp only [Heap.set, Heap.get]
  induction store with
  | nil => simp [List.find?]
  | cons e rest ih =>
    obtain ⟨b, ob⟩ := e
    by_cases hbc : b = c
    · subst hbc
      by_cases hba : b = a
      · subst hba
        simp [List.find?]
      · have h1 : (b == a) = false := by simp [hba]
        have h2 : (b == b) = true := by simp
        by_cases hca : b = a
        · exact absurd hca hba
        · simp [List.find?, h1, h2, hca]
    · have h1 : (b == c) = false := by simp [hbc]
      by_cases hba : b = a
      · subst hba
        have hca : ¬(c = b) := fun hh => hbc hh.symm
        simp [List.find?, h1, hca] at ih ⊢
        exact ih
      · have h2 : (b == a) = false := by simp [hba]
        simp [List.find?, h1, h2] at ih ⊢
        exact ih

theorem Heap.get_some_lt (h : Heap) (hwf : Heap.wf h) (a : Nat) (o : HObj)
    (hg : h.get a = some o) : a < h.nextAddr := by
  unfold Heap.get at hg
  cases hf : h.store.find? (fun e => e.1 == a) with
  | none => rw [hf] at hg; simp at hg
  | some e =>
    have hmem := List.mem_of_find?_eq_some hf
    have hpred := List.find?_some hf
    have he1 : e.1 = a := by simpa using hpred
    have := hwf e hmem
    omega

theorem Heap.wf_alloc (h : Heap) (o : HObj) (hwf : Heap.wf h) :
    Heap.wf (h.alloc o).1 := by
  intro e he
  have hst : ((h.alloc o).1).store = (h.nextAddr, o) :: h.store := rfl
  rw [hst] at he
  show e.1 < h.nextAddr + 1
  rcases List.mem_cons.mp he with rfl | he2
  · show h.nextAddr < h.nextAddr + 1
    omega
  · have := hwf e he2
    omega

theorem Heap.wf_set (h : Heap) (a : Nat) (o : HObj) (hwf : Heap.wf h) :
    Heap.wf (h.set a o) := by
  intro e he
  have hst : (h.set a o).store
      = h.store.map (fun e => if e.1 == a then (a, o) else e) := rfl
  rw [hst] at he
  show e.1 < h.nextAddr
  obtain ⟨e2, he2, rfl⟩ := List.mem_map.mp he
  have hlt := hwf e2 he2
  by_cases hb : (e2.1 == a) = true
  · rw [if_pos hb]
    have he2a : e2.1 = a := by simpa using hb
    show a < h.nextAddr
    omega
  · rw [if_neg hb]
    exact hlt

theorem Heap.nextAddr_set (h : Heap) (a : Nat) (o : HObj) :
    (h.set a o).nextAddr = h.nextAddr := rfl

theorem Heap.nextAddr_alloc (h : Heap) (o : HObj) :
    ((h.alloc o).1).nextAddr = h.nextAddr + 1 := rfl

/-- Restriction of `RefsAbove` to the tail. -/
theorem RefsAbove_tail (N : Nat) (kv : String × HVal) (rest : HObj)
    (h : RefsAbove N (kv :: rest)) : RefsAbove N rest := by
  intro e he b hb
  exact h e (List.mem_cons_of_mem kv he) b hb

/-- The field walk of the clone preserves the old heap, keeps the fresh
part closed, and produces fields that only reference the fresh part,
provided the value-cloner does. -/
theorem cloneFieldsWith_spec (N : Nat) (cv : Heap → HVal → Option (Heap × HVal))
    (hcv : ∀ h v h2 v2, cv h v = some (h2, v2) → Heap.wf h → N ≤ h.nextAddr →
      GoodAbove N h →
      Heap.wf h2 ∧ h.nextAddr ≤ h2.nextAddr ∧
        (∀ a, a < h.nextAddr → h2.get a = h.get a) ∧ GoodAbove N h2 ∧ ValAbove N v2) :
    ∀ (o : HObj) (h h3 : Heap) (o2 : HObj),
      cloneFieldsWith cv h o = some (h3, o2) → Heap.wf h → N ≤ h.nextAddr →
      GoodAbove N h →
      Heap.wf h3 ∧ h.nextAddr ≤ h3.nextAddr ∧
        (∀ a, a < h.nextAddr → h3.get a = h.get a) ∧ GoodAbove N h3 ∧
        RefsAbove N o2 := by
  intro o
  induction o with
  | nil =>
    intro h h3 o2 hrun hwf hN hgood
    rw [cloneFieldsWith] at hrun
    simp at hrun
    obtain ⟨rfl, rfl⟩ := hrun
    exact ⟨hwf, le_refl _, fun a _ => rfl, hgood, by intro kv hkv b hb; simp at hkv⟩
  | cons kv rest ih =>
    intro h h3 o2 hrun hwf hN hgood
    obtain ⟨k, v⟩ := kv
    rw [cloneFieldsWith] at hrun
    cases hcv1 : cv h v with
    | none => rw [hcv1] at hrun; simp at hrun
    | some p =>
      obtain ⟨h2, v2⟩ := p
      rw [hcv1] at hrun
      simp only [] at hrun
      cases hrest : cloneFieldsWith cv h2 rest with
      | none => rw [hrest] at hrun; simp at hrun
      | some q =>
        obtain ⟨h3b, rest2⟩ := q
        rw [hrest] at hrun
        simp at hrun
        obtain ⟨rfl, rfl⟩ := hrun
        obtain ⟨hwf2, hle2, hpres2, hgood2, hval2⟩ := hcv h v h2 v2 hcv1 hwf hN hgood
        obtain ⟨hwf3, hle3, hpres3, hgood3, hrefs3⟩ :=
          ih h2 h3b rest2 hrest hwf2 (le_trans hN hle2) hgood2
        refine ⟨hwf3, le_trans hle2 hle3, ?_, hgood3, ?_⟩
        · intro a ha
          rw [hpres3 a (lt_of_lt_of_le ha hle2), hpres2 a ha]
        · intro kv2 hkv2 b hb
          rcases List.mem_cons.mp hkv2 with rfl | hm
          · cases v2 with
            | hstr s => simp at hb
            | href ba =>
              have hba : ba = b := by simpa using hb
              subst hba
              exact hval2
          · exact hrefs3 kv2 hm b hb

/-- The deep clone preserves the old heap (in particular every object of
the original dictionary), keeps the fresh part closed, and returns a
value that only references the fresh part. -/
theorem cloneVal_spec (N : Nat) : ∀ (fuel : Nat) (h : Heap) (v : HVal) (h2 : Heap)
    (v2 : HVal),
    cloneVal fuel h v = some (h2, v2) → Heap.wf h → N ≤ h.nextAddr → GoodAbove N h →
    Heap.wf h2 ∧ h.nextAddr ≤ h2.nextAddr ∧
      (∀ a, a < h.nextAddr → h2.get a = h.get a) ∧ GoodAbove N h2 ∧ ValAbove N v2 := by
  intro fuel
  induction fuel with
  | zero =>
    intro h v h2 v2 hrun hwf hN hgood
    match v with
    | .hstr s =>
      simp [cloneVal] at hrun
      obtain ⟨rfl, rfl⟩ := hrun
      exact ⟨hwf, le_refl _, fun a _ => rfl, hgood, trivial⟩
    | .href a => simp [cloneVal] at hrun
  | succ fuel ih =>
    intro h v h2 v2 hrun hwf hN hgood
    match v with
    | .hstr s =>
      simp [cloneVal, cloneValStep] at hrun
      obtain ⟨rfl, rfl⟩ := hrun
      exact ⟨hwf, le_refl _, fun a _ => rfl, hgood, trivial⟩
    | .href a0 =>
      rw [cloneVal] at hrun
      simp only [cloneValStep] at hrun
      cases hget : h.get a0 with
      | none => rw [hget] at hrun; simp at hrun
      | some o =>
        rw [hget] at hrun
        simp only [] at hrun
        cases hfields : cloneFieldsWith (cloneVal fuel) h o with
        | none => rw [hfields] at hrun; simp at hrun
        | some q =>
          obtain ⟨h2c, o2⟩ := q
          rw [hfields] at hrun
          simp at hrun
          obtain ⟨rfl, rfl⟩ := hrun
          obtain ⟨hwfc, hlec, hpresc, hgoodc, hrefsc⟩ :=
            cloneFieldsWith_spec N (cloneVal fuel) ih o h h2c o2 hfields hwf hN hgood
          refine ⟨Heap.wf_alloc h2c o2 hwfc, ?_, ?_, ?_, ?_⟩
          · rw [Heap.nextAddr_alloc]; omega
          · intro a ha
            rw [Heap.get_alloc]
            rw [if_neg (by omega)]
            rw [hpresc a ha]
          · intro a oa hgeta hNa
            rw [Heap.get_alloc] at hgeta
            by_cases haeq : a = h2c.nextAddr
            · rw [if_pos haeq] at hgeta
              obtain rfl : o2 = oa := by simpa using hgeta
              exact hrefsc
            · rw [if_neg haeq] at hgeta
              exact hgoodc a oa hgeta hNa
          · show N ≤ h2c.nextAddr
            omega

/-- The field walk of the in-place interpolation only writes at or above
`N`, provided the recursive visitor does: reads below `N` are
unchanged, the fresh part stays closed, and references are kept. -/
theorem objInterpFieldsWith_spec (N : Nat) (subst : String → String)
    (go : Heap → Nat → Option Heap)
    (hgo : ∀ h a h2, go h a = some h2 → GoodAbove N h → N ≤ a →
      (∀ b, b < N → h2.get b = h.get b) ∧ GoodAbove N h2) :
    ∀ (o : HObj) (h h3 : Heap) (o2 : HObj),
      objInterpFieldsWith go subst h o = some (h3, o2) → GoodAbove N h →
      RefsAbove N o →
      (∀ b, b < N → h3.get b = h.get b) ∧ GoodAbove N h3 ∧ RefsAbove N o2 := by
  intro o
  induction o with
  | nil =>
    intro h h3 o2 hrun hgood hrefs
    rw [objInterpFieldsWith] at hrun
    simp at hrun
    obtain ⟨rfl, rfl⟩ := hrun
    exact ⟨fun b _ => rfl, hgood, by intro kv hkv b hb; simp at hkv⟩
  | cons kv rest ih =>
    intro h h3 o2 hrun hgood hrefs
    obtain ⟨k, v⟩ := kv
    match v with
    | .hstr s =>
      rw [objInterpFieldsWith] at hrun
      cases hrest : objInterpFieldsWith go subst h rest with
      | none => rw [hrest] at hrun; simp at hrun
      | some q =>
        obtain ⟨h2, rest2⟩ := q
        rw [hrest] at hrun
        simp at hrun
        obtain ⟨rfl, rfl⟩ := hrun
        obtain ⟨hpres, hgood2, hrefs2⟩ :=
          ih h h2 rest2 hrest hgood (RefsAbove_tail N _ rest hrefs)
        refine ⟨hpres, hgood2, ?_⟩
        intro kv2 hkv2 b hb
        rcases List.mem_cons.mp hkv2 with rfl | hm
        · simp at hb
        · exact hrefs2 kv2 hm b hb
    | .href b0 =>
      rw [objInterpFieldsWith] at hrun
      have hNb0 : N ≤ b0 := hrefs (k, .href b0) (List.mem_cons_self _ _) b0 rfl
      cases hgo1 : go h b0 with
      | none => rw [hgo1] at hrun; simp at hrun
      | some h2 =>
        rw [hgo1] at hrun
        simp only [] at hrun
        cases hrest : objInterpFieldsWith go subst h2 rest with
        | none => rw [hrest] at hrun; simp at hrun
        | some q =>
          obtain ⟨h3b, rest2⟩ := q
          rw [hrest] at hrun
          simp at hrun
          obtain ⟨rfl, rfl⟩ := hrun
          obtain ⟨hpres1, hgood1⟩ := hgo h b0 h2 hgo1 hgood hNb0
          obtain ⟨hpres2, hgood2, hrefs2⟩ :=
            ih h2 h3b rest2 hrest hgood1 (RefsAbove_tail N _ rest hrefs)
          refine ⟨?_, hgood2, ?_⟩
          · intro b hb
            rw [hpres2 b hb, hpres1 b hb]
          · intro kv2 hkv2 b hb
            rcases List.mem_cons.mp hkv2 with rfl | hm
            · have hbb : b0 = b := by simpa using hb
              subst hbb
              exact hNb0
            · exact hrefs2 kv2 hm b hb

/-- The in-place interpolation of an object living in the fresh part of
the heap leaves every address below `N` untouched and keeps the fresh
part closed. -/
theorem objInterpHeap_spec (N : Nat) (subst : String → String) :
    ∀ (fuel : Nat) (h : Heap) (a : Nat) (h2 : Heap),
      objInterpHeap subst fuel h a = some h2 → GoodAbove N h → N ≤ a →
      (∀ b, b < N → h2.get b = h.get b) ∧ GoodAbove N h2 := by
  intro fuel
  induction fuel with
  | zero => intro h a h2 hrun; simp [objInterpHeap] at hrun
  | succ fuel ih =>
    intro h a h2 hrun hgood hNa
    rw [objInterpHeap] at hrun
    cases hget : h.get a with
    | none => rw [hget] at hrun; simp at hrun
    | some o =>
      rw [hget] at hrun
      simp only [] at hrun
      cases hfields : objInterpFieldsWith (objInterpHeap subst fuel) subst h o with
      | none => rw [hfields] at hrun; simp at hrun
      | some q =>
        obtain ⟨h2b, o2⟩ := q
        rw [hfields] at hrun
        simp at hrun
        subst hrun
        obtain ⟨hpres, hgood2, hrefs2⟩ :=
          objInterpFieldsWith_spec N subst (objInterpHeap subst fuel) ih o h h2b o2
            hfields hgood (hgood a o hget hNa)
        constructor
        · intro b hb
          rw [Heap.get_set]
          rw [if_neg (by omega)]
          exact hpres b hb
        · intro c oc hgetc hNc
          rw [Heap.get_set] at hgetc
          by_cases hca : c = a
          · rw [if_pos hca] at hgetc
            cases hg2 : h2b.get a with
            | none => rw [hg2] at hgetc; simp at hgetc
            | some oo =>
              rw [hg2] at hgetc
              obtain rfl : o2 = oc := by simpa using hgetc
              exact hrefs2
          · rw [if_neg hca] at hgetc
            exact hgood2 c oc hgetc hNc

/-- C9: the dictionary is left unchanged by a translate call: a resolved
object value is deep-cloned (`JSON.parse(JSON.stringify(dicValue))`)
before the in-place `objectInterpolation` runs, so every object stored
in the original heap — in particular every dictionary template — reads
exactly the same afterwards, and repeated lookups of the same key with
different queries observe the same original templates. -/
theorem claim9_dictionary_unchanged (subst : String → String) (fuelC fuelI : Nat)
    (h : Heap) (v : HVal) (h2 : Heap) (v2 : HVal) (hwf : Heap.wf h)
    (hrun : transValueHeap subst fuelC fuelI h v = some (h2, v2)) :
    ∀ a, a < h.nextAddr → h2.get a = h.get a := by
  have hgood : GoodAbove h.nextAddr h := by
    intro a o hget hNa
    have hlt := Heap.get_some_lt h hwf a o hget
    exact absurd hNa (by omega)
  match v with
  | .hstr s =>
    rw [transValueHeap] at hrun
    simp at hrun
    obtain ⟨rfl, rfl⟩ := hrun
    intro a _
    rfl
  | .href a0 =>
    rw [transValueHeap] at hrun
    cases hc : cloneVal fuelC h (.href a0) with
    | none => rw [hc] at hrun; simp at hrun
    | some p =>
      obtain ⟨h1, v1⟩ := p
      rw [hc] at hrun
      obtain ⟨hwf1, hle1, hpres1, hgood1, hval1⟩ :=
        cloneVal_spec h.nextAddr fuelC h (.href a0) h1 v1 hc hwf (le_refl _) hgood
      match v1 with
      | .hstr s =>
        simp at hrun
        obtain ⟨rfl, rfl⟩ := hrun
        intro a ha
        exact hpres1 a ha
      | .href a2 =>
        simp only [] at hrun
        have hN2 : h.nextAddr ≤ a2 := hval1
        cases hi : objInterpHeap subst fuelI h1 a2 with
        | none => rw [hi] at hrun; simp at hrun
        | some h2b =>
          rw [hi] at hrun
          simp at hrun
          obtain ⟨rfl, rfl⟩ := hrun
          intro a ha
          have p1 := (objInterpHeap_spec h.nextAddr subst fuelI h1 a2 h2b hi hgood1 hN2).1
          rw [p1 a ha]
          exact hpres1 a ha

theorem claim9_dictionary_unchanged_witness :
    transValueHeap substC9 2 2 heapC9 (.href 0) = some (heapC9out, .href 1) ∧
    heapC9out.get 0 = heapC9.get 0 :=
  ⟨rfl,
   claim9_dictionary_unchanged substC9 2 2 heapC9 (.href 0) heapC9out (.href 1)
     (by
       intro e he
       simp only [heapC9, List.mem_singleton] at he
       subst he
       decide)
     rfl 0 (by decide)⟩
